import Mathlib

/-!
Verification of the multi-step query execution engine of the `memova`
repository (files `src/core/query_plan.py` and `src/core/query_engine.py`).

The Python code is shallowly embedded: dataclasses become structures,
dictionaries become association lists or update-functions, exceptions become
`Except`, and the two external capabilities of the engine (the SQL executor
and the AI corrector) become function-typed parameters.  Wall-clock durations
are abstracted to `some 0` (only presence matters to every property checked
here), and SQL values are modelled as null / text / integer (float formatting
is irrelevant to the claims).  Recursive procedures are embedded with an
explicit fuel parameter large enough that exhaustion is unreachable on the
runs the theorems talk about; where exhaustion would matter it is proved
unreachable or conservatively reports the property being searched for.
-/

namespace Memova

/-- Execution status of a query step (`QueryStatus` in `query_plan.py`). -/
inductive QueryStatus where
  | pending
  | executing
  | completed
  | failed
deriving DecidableEq, Repr, BEq

/-- SQLite values as they matter to the engine: null, text, integer. -/
inductive Value where
  | null
  | text (s : String)
  | intg (n : Int)
deriving DecidableEq, Repr, BEq

/-- Result set of one query: column names plus rows of values
(the `{"columns": ..., "rows": ...}` dictionaries of `query_engine.py`). -/
structure QueryResults where
  columns : List String
  rows : List (List Value)
deriving DecidableEq, Repr, BEq

/-- One SQL query of a multi-query plan (`QueryStep` in `query_plan.py`). -/
structure QueryStep where
  id : String
  description : String
  sql : String
  depends_on : List String := []
  status : QueryStatus := QueryStatus.pending
  results : Option QueryResults := none
  error : Option String := none
  execution_time_ms : Option Nat := none
  row_count : Option Nat := none
deriving DecidableEq, Repr

/-- Complete multi-query execution plan (`QueryPlan` in `query_plan.py`).
In Python a `QueryPlan` object only exists after `__post_init__` validation;
here the structure is raw data and `validate_plan` below is the construction
check, so "successfully constructed plan" is `validate_plan p = .ok ()`. -/
structure QueryPlan where
  queries : List QueryStep
  final_query_id : String
  question : Option String := none
  total_execution_time_ms : Option Nat := none
deriving DecidableEq, Repr

/-- `QueryPlan.get_query`: first query with the given id, else `None`. -/
def QueryPlan.get_query (p : QueryPlan) (query_id : String) : Option QueryStep :=
  p.queries.find? (fun q => q.id = query_id)

/-- `QueryPlan.is_complete`: all queries completed. -/
def QueryPlan.is_complete (p : QueryPlan) : Bool :=
  p.queries.all (fun q => q.status == QueryStatus.completed)

/-- `QueryPlan.has_errors`: some query failed. -/
def QueryPlan.has_errors (p : QueryPlan) : Bool :=
  p.queries.any (fun q => q.status == QueryStatus.failed)

/-! ### Cycle detection (`QueryPlan._has_circular_dependencies`)

The Python method is a recursive DFS with shared mutable `visited` and
`rec_stack` sets.  `rec_stack` is restored on normal exit of each frame, so it
is passed down unchanged while `visited` is threaded through.  The fuel is
decremented on every call; `dfsFuel` below is far larger than the maximal call
depth, and exhaustion conservatively reports a cycle (`none`), which is the
value the surrounding validation is searching for.  When `get_query` misses
(a dependency on a non-existent step) Python would crash; validation only
runs the DFS after the dependency check, and the embedding treats a missing
step as having no dependencies. -/

mutual

/-- One DFS frame of `_has_circular_dependencies.visit`: `none` means a cycle
was reported, `some v` means no cycle and `v` is the updated visited set. -/
def visit (p : QueryPlan) (fuel : Nat) (visited recStack : List String)
    (query_id : String) : Option (List String) :=
  match fuel with
  | 0 => none
  | n + 1 =>
    if query_id ∈ recStack then none
    else if query_id ∈ visited then some visited
    else
      match p.get_query query_id with
      | none => some (query_id :: visited)
      | some q => visitList p n (query_id :: visited) (query_id :: recStack) q.depends_on

/-- The `for dep_id in query.depends_on: if visit(dep_id): return True` loop. -/
def visitList (p : QueryPlan) (fuel : Nat) (visited recStack : List String)
    (deps : List String) : Option (List String) :=
  match fuel with
  | 0 => none
  | n + 1 =>
    match deps with
    | [] => some visited
    | d :: ds =>
      match visit p n visited recStack d with
      | none => none
      | some v2 => visitList p n v2 recStack ds

end

/-- The `for query in self.queries: if query.id not in visited: ...` loop. -/
def hasCircularAux (p : QueryPlan) (fuel : Nat) :
    List QueryStep → List String → Bool
  | [], _ => false
  | q :: rest, visited =>
    if q.id ∈ visited then hasCircularAux p fuel rest visited
    else
      match visit p fuel visited [] q.id with
      | none => true
      | some v2 => hasCircularAux p fuel rest v2

/-- Fuel bound for the DFS: generous upper bound on the call depth. -/
def dfsFuel (p : QueryPlan) : Nat :=
  2 * (p.queries.length + (p.queries.map (fun q => q.depends_on.length)).sum) + 4

/-- `QueryPlan._has_circular_dependencies`. -/
def has_circular_dependencies (p : QueryPlan) : Bool :=
  hasCircularAux p (dfsFuel p) p.queries []

/-! ### Construction-time validation (`QueryPlan._validate_plan`) -/

/-- `QueryPlan._validate_plan`, run by `__post_init__`: either the plan is
accepted (`.ok ()`) or construction raises `ValueError` with the given
message (`.error msg`) and no plan object is produced. -/
def validate_plan (p : QueryPlan) : Except String Unit :=
  let ids := p.queries.map (fun q => q.id)
  if ids.length ≠ ids.dedup.length then
    Except.error "Query IDs must be unique"
  else if p.final_query_id ∉ ids then
    Except.error ("Final query ID \x27" ++ p.final_query_id ++ "\x27 not found in queries")
  else
    match p.queries.find? (fun q => q.depends_on.any (fun d => !(ids.contains d))) with
    | some q =>
      Except.error ("Query \x27" ++ q.id ++ "\x27 depends on non-existent query \x27" ++
        ((q.depends_on.find? (fun d => !(ids.contains d))).getD "") ++ "\x27")
    | none =>
      if has_circular_dependencies p then
        Except.error "Circular dependencies detected in query plan"
      else
        Except.ok ()

/-! ### Execution scheduler (`QueryPlan.get_execution_order`)

Kahn's algorithm.  The Python `dependents` dictionary maps each step id to
the ids of the steps depending on it, one entry per occurrence; `in_degree`
is a dictionary built by insertion (later duplicate ids overwrite); the queue
holds the ids whose in-degree reached zero, in dictionary insertion order
(first occurrence).  `in_degree` values live in `Int` exactly as Python ints.
The while-loop runs at most once per plan id, so `queries.length + 1` fuel is
exact; exhaustion (unreachable, and proved unreachable where it matters)
returns the order accumulated so far.  Python would raise `KeyError` while
building `dependents` for a dependency naming a non-existent step; the
embedding's `dependents` is total and the theorems about the scheduler carry
the resolvable-dependencies hypothesis under which both agree. -/

/-- Ids of the steps that depend on `d`, one entry per occurrence of `d` in a
`depends_on` list, in plan order (the `dependents` adjacency dictionary). -/
def dependents (p : QueryPlan) (d : String) : List String :=
  p.queries.flatMap (fun q => List.replicate (q.depends_on.count d) q.id)

/-- The `in_degree` dictionary: each step id mapped to the length of its
`depends_on` list, later duplicate ids overwriting earlier ones. -/
def in_degree0 (p : QueryPlan) : String → Int :=
  p.queries.foldl (fun f q => Function.update f q.id (q.depends_on.length : Int)) (fun _ => 0)

/-- Keys of a Python dictionary built by successive insertion: first
occurrences, in order. -/
def dictKeys (l : List String) : List String :=
  l.foldl (fun acc x => if x ∈ acc then acc else acc ++ [x]) []

/-- The `for dependent_id in dependents[query_id]` body: decrement each
dependent's in-degree and collect (in hit order) those that reach zero. -/
def processDeps : List String → (String → Int) → (String → Int) × List String
  | [], deg => (deg, [])
  | d :: ds, deg =>
    let v := deg d - 1
    let rest := processDeps ds (Function.update deg d v)
    (rest.1, if v = 0 then d :: rest.2 else rest.2)

/-- The Kahn while-loop over (queue, in_degree, accumulated order). -/
def kahnLoop (p : QueryPlan) (fuel : Nat) (queue : List String)
    (deg : String → Int) (acc : List String) : List String :=
  match fuel with
  | 0 => acc
  | n + 1 =>
    match queue with
    | [] => acc
    | qid :: rest =>
      let pr := processDeps (dependents p qid) deg
      kahnLoop p n (rest ++ pr.2) pr.1 (acc ++ [qid])

/-- `QueryPlan.get_execution_order`: topological order of the steps.  The
Python loop appends `self.get_query(query_id)` for each popped id; every
popped id is a plan id, so the `filterMap` keeps every entry. -/
def get_execution_order (p : QueryPlan) : List QueryStep :=
  let deg := in_degree0 p
  let queue := (dictKeys (p.queries.map (fun q => q.id))).filter (fun x => deg x == 0)
  (kahnLoop p (p.queries.length + 1) queue deg []).filterMap (fun i => p.get_query i)

/-! ### Dependency resolver (`QueryEngine._resolve_dependencies`) -/

/-- Literal rendering of one value (`NULL`, quoted-and-escaped text, or the
decimal form), as in the `formatted_values` loop. -/
def formatValue : Value → String
  | Value.null => "NULL"
  | Value.text s => "\x27" ++ (s.replace "\x27" "\x27\x27") ++ "\x27"
  | Value.intg n => toString n

/-- One `SELECT v1, v2, ...` clause of the inlined relation. -/
def mkSelectRow (row : List Value) : String :=
  "SELECT " ++ String.intercalate ", " (row.map formatValue)

/-- Lookup in the results cache (`dep_id not in results_cache` / indexing). -/
def lookupCache (cache : List (String × QueryResults)) (k : String) : Option QueryResults :=
  (cache.find? (fun e => e.1 = k)).map (fun e => e.2)

/-- `QueryEngine._resolve_dependencies`: prepend a CTE per dependency whose
cached result has at least one row; dependencies missing from the cache or
with an empty row list contribute no CTE. -/
def resolve_dependencies (query : QueryStep) (cache : List (String × QueryResults)) : String :=
  if query.depends_on.isEmpty then query.sql
  else
    let ctes := query.depends_on.filterMap (fun dep_id =>
      match lookupCache cache dep_id with
      | none => none
      | some depRes =>
        if depRes.rows.isEmpty then none
        else some (dep_id ++ "(" ++ String.intercalate ", " depRes.columns ++ ") AS (" ++
          String.intercalate " UNION ALL " (depRes.rows.map mkSelectRow) ++ ")"))
    if ctes.isEmpty then query.sql
    else "WITH " ++ String.intercalate ", " ctes ++ " " ++ query.sql

/-! ### Retry classification (`QueryEngine._is_retryable_error`) -/

/-- Substring test on character lists: does `pat` start `hay`? -/
def charsPre : List Char → List Char → Bool
  | [], _ => true
  | _ :: _, [] => false
  | a :: as, b :: bs => a = b && charsPre as bs

/-- Substring test on character lists: does `pat` occur inside `hay`? -/
def charsSub (pat : List Char) : List Char → Bool
  | [] => charsPre pat []
  | h :: t => charsPre pat (h :: t) || charsSub pat t

/-- Python's `pat in hay` substring test. -/
def strContains (hay pat : String) : Bool :=
  charsSub pat.data hay.data

/-- Python's `str.lower()`, character by character (the patterns are ASCII). -/
def strLower (s : String) : String :=
  String.mk (s.data.map Char.toLower)

/-- The `retryable_patterns` list of `_is_retryable_error`. -/
def retryable_patterns : List String :=
  ["ambiguous column", "no such column", "no such table", "syntax error", "near",
   "join", "type mismatch", "datatype mismatch", "invalid",
   "only execute one statement", "multiple statements"]

/-- The `non_retryable_patterns` list of `_is_retryable_error`. -/
def non_retryable_patterns : List String :=
  ["permission denied", "database is locked", "disk i/o error", "out of memory",
   "database disk image is malformed"]

/-- `QueryEngine._is_retryable_error`: non-retryable patterns are checked
first; a message matching none of the lists is not retried. -/
def is_retryable_error (error_message : String) : Bool :=
  let el := strLower error_message
  if non_retryable_patterns.any (fun pat => strContains el pat) then false
  else retryable_patterns.any (fun pat => strContains el pat)

/-! ### The execution driver (`QueryEngine.execute_plan`)

External collaborators become function parameters: `executor` is
`DatabaseManager.execute_query` (a row is an ordered column-to-value
association, an exception is `.error message`), `corrector` is
`SQLGenerator.fix_sql_error (failing_sql, error_message, question, attempt)`.
`maxRetries` is `Config.MAX_SQL_ERROR_RETRIES` (2 in the shipped config) and
`maxResults` is the `max_results` argument after defaulting.  Each run also
returns the trace of SQL texts submitted to the executor, so that attempt
counts are part of the model. -/

structure ExecEnv where
  executor : String → Except String (List (List (String × Value)))
  corrector : String → String → String → Nat → Except String String
  maxRetries : Nat
  maxResults : Nat

/-- Build the `{"columns": ..., "rows": ...}` dictionary from raw rows. -/
def buildResults (raw : List (List (String × Value))) : QueryResults :=
  { columns := (match raw with | [] => [] | r :: _ => r.map (fun c => c.1)),
    rows := raw.map (fun r => r.map (fun c => c.2)) }

/-- The `while retry_count <= max_retries` loop body for one step.  Returns
the updated step and the trace of SQL texts submitted to the executor.  The
loop runs at most `maxRetries + 1` iterations (`retry_count` only increments
while strictly below `maxRetries`), so `runStep` passes exactly that much
fuel; exhaustion is unreachable.  The transient `Executing` status is
overwritten before the loop exits on every path and is not materialised. -/
def runStepLoop (env : ExecEnv) (final_id : String) (fuel : Nat)
    (query : QueryStep) (retry_count : Nat) (sql : String) :
    QueryStep × List String :=
  match fuel with
  | 0 => (query, [])
  | n + 1 =>
    match env.executor sql with
    | Except.ok raw =>
      let qr := buildResults raw
      let qr := if query.id = final_id ∧ env.maxResults < qr.rows.length
                then { qr with rows := qr.rows.take env.maxResults } else qr
      ({ query with status := QueryStatus.completed, results := some qr,
                    execution_time_ms := some 0, row_count := some qr.rows.length }, [sql])
    | Except.error e =>
      if retry_count < env.maxRetries ∧ is_retryable_error e = true then
        match env.corrector sql e query.description (retry_count + 1) with
        | Except.ok corrected =>
          let rest := runStepLoop env final_id n { query with sql := corrected }
            (retry_count + 1) corrected
          (rest.1, sql :: rest.2)
        | Except.error _ =>
          ({ query with status := QueryStatus.failed, error := some e }, [sql])
      else
        ({ query with status := QueryStatus.failed, error := some e }, [sql])

/-- Execute one step: resolve its dependencies against the cache, then run
the retry loop from `retry_count = 0`. -/
def runStep (env : ExecEnv) (final_id : String) (query : QueryStep)
    (cache : List (String × QueryResults)) : QueryStep × List String :=
  runStepLoop env final_id (env.maxRetries + 1) query 0 (resolve_dependencies query cache)

/-- Outcome of one executed step: the updated step and its executor trace. -/
structure StepOutcome where
  step : QueryStep
  trace : List String
deriving Repr

/-- The `for query in execution_order` loop: run each step in order, cache
completed results for downstream resolution, and stop after the first step
that ends `Failed`. -/
def runSteps (env : ExecEnv) (final_id : String) :
    List QueryStep → List (String × QueryResults) → List StepOutcome
  | [], _ => []
  | q :: rest, cache =>
    let r := runStep env final_id q cache
    if r.1.status = QueryStatus.failed then [⟨r.1, r.2⟩]
    else
      let cache2 := match r.1.results with
        | some qr => cache ++ [(q.id, qr)]
        | none => cache
      ⟨r.1, r.2⟩ :: runSteps env final_id rest cache2

/-- `QueryEngine.execute_plan`: run the steps in scheduler order; the plan is
mutated in place in Python, so the returned plan carries each step's final
state (steps never reached are untouched) and the total duration is set. -/
def execute_plan (env : ExecEnv) (p : QueryPlan) : QueryPlan :=
  let outs := runSteps env p.final_query_id (get_execution_order p) []
  { p with
    queries := p.queries.map (fun q =>
      match (outs.map (fun o => o.step)).find? (fun s => s.id = q.id) with
      | some s => s
      | none => q)
    total_execution_time_ms := some 0 }

/-! ### Serialization (`to_dict` / `from_dict`) -/

/-- The `.value` string of a status, as serialized by `QueryStep.to_dict`. -/
def QueryStatus.value : QueryStatus → String
  | QueryStatus.pending => "pending"
  | QueryStatus.executing => "executing"
  | QueryStatus.completed => "completed"
  | QueryStatus.failed => "failed"

/-- The dictionary produced by `QueryStep.to_dict`. -/
structure StepDict where
  id : String
  description : String
  sql : String
  depends_on : List String
  status : String
  row_count : Option Nat
  execution_time_ms : Option Nat
  error : Option String
  results : Option QueryResults
deriving DecidableEq, Repr

/-- `QueryStep.to_dict`. -/
def QueryStep.to_dict (q : QueryStep) : StepDict :=
  { id := q.id, description := q.description, sql := q.sql,
    depends_on := q.depends_on, status := q.status.value,
    row_count := q.row_count, execution_time_ms := q.execution_time_ms,
    error := q.error, results := q.results }

/-- `QueryStep.from_dict`: only id, description, sql and depends_on are read;
every execution field takes its dataclass default. -/
def QueryStep.from_dict (d : StepDict) : QueryStep :=
  { id := d.id, description := d.description, sql := d.sql,
    depends_on := d.depends_on }

/-- The dictionary produced by `QueryPlan.to_dict`. -/
structure PlanDict where
  queries : List StepDict
  final_query_id : String
  question : Option String
  total_execution_time_ms : Option Nat
  is_complete : Bool
  has_errors : Bool
deriving DecidableEq, Repr

/-- `QueryPlan.to_dict`. -/
def QueryPlan.to_dict (p : QueryPlan) : PlanDict :=
  { queries := p.queries.map QueryStep.to_dict,
    final_query_id := p.final_query_id, question := p.question,
    total_execution_time_ms := p.total_execution_time_ms,
    is_complete := p.is_complete, has_errors := p.has_errors }

/-- `QueryPlan.from_dict`: rebuild the steps, then `__post_init__` validates;
an invalid dictionary raises instead of producing a plan. -/
def QueryPlan.from_dict (d : PlanDict) : Except String QueryPlan :=
  let p : QueryPlan :=
    { queries := d.queries.map QueryStep.from_dict,
      final_query_id := d.final_query_id, question := d.question,
      total_execution_time_ms := none }
  match validate_plan p with
  | Except.ok _ => Except.ok p
  | Except.error e => Except.error e

/-! ### Derived notions used by the statements -/

/-- The dependency edge relation of a plan: `a` depends on `b` (an edge from
a step to each entry of its `depends_on` list, the step being resolved by
`get_query` exactly as the code resolves ids). -/
def depEdge (p : QueryPlan) (a b : String) : Prop :=
  ∃ q, p.get_query a = some q ∧ b ∈ q.depends_on

/-- The dependency relation contains a cycle. -/
def hasCycleProp (p : QueryPlan) : Prop :=
  ∃ a, Relation.TransGen (depEdge p) a a

/-- A step that has never been executed: the dataclass defaults. -/
def freshStep (q : QueryStep) : Prop :=
  q.status = QueryStatus.pending ∧ q.results = none ∧ q.error = none ∧
  q.execution_time_ms = none ∧ q.row_count = none

/-- A plan none of whose steps has been executed. -/
def freshPlan (p : QueryPlan) : Prop :=
  ∀ q ∈ p.queries, freshStep q

instance (q : QueryStep) : Decidable (freshStep q) := by
  unfold freshStep; infer_instance

instance (p : QueryPlan) : Decidable (freshPlan p) := by
  unfold freshPlan; infer_instance

/-- Remaining in-degree: how many `depends_on` entries of the step with id
`x` (occurrences counted) are not yet in the accumulated order `acc`. -/
def remDeg (p : QueryPlan) (acc : List String) (x : String) : Int :=
  match p.get_query x with
  | some q => (q.depends_on.countP (fun d => !(acc.contains d)) : Int)
  | none => 0

/-- DFS invariant: no finished ("black") node lies on a dependency cycle. -/
def blackSafe (p : QueryPlan) (V R : List String) : Prop :=
  ∀ b ∈ V, b ∉ R → ¬ Relation.TransGen (depEdge p) b b

/-- An id list is dependency-ordered: every entry's dependencies occur
strictly earlier in the list. -/
def OrderOK (p : QueryPlan) (acc : List String) : Prop :=
  ∀ (i : Nat) (x : String), acc[i]? = some x → ∀ d, depEdge p x d →
    ∃ j, j < i ∧ acc[j]? = some d

/-- Loop invariant of the Kahn while-loop. -/
structure KahnInv (p : QueryPlan) (queue : List String) (deg : String → Int)
    (acc : List String) : Prop where
  accNodup : acc.Nodup
  accIds : ∀ x ∈ acc, x ∈ p.queries.map (fun q => q.id)
  queueNodup : queue.Nodup
  queueIds : ∀ x ∈ queue, x ∈ p.queries.map (fun q => q.id)
  queueAcc : ∀ x ∈ queue, x ∉ acc
  degEq : ∀ x ∈ p.queries.map (fun q => q.id), deg x = remDeg p acc x
  zeroIn : ∀ x ∈ p.queries.map (fun q => q.id), deg x = 0 → x ∈ acc ∨ x ∈ queue
  queueReady : ∀ x ∈ queue, ∀ d, depEdge p x d → d ∈ acc
  orderOK : OrderOK p acc
  cycOut : ∀ x, Relation.TransGen (depEdge p) x x → x ∉ acc ∧ x ∉ queue

/-- Conclusion of claim C2: the scheduler's output is a permutation of the
plan's steps in which every step follows all the steps its `depends_on` list
names. -/
def TopoOK (p : QueryPlan) : Prop :=
  (get_execution_order p).Perm p.queries ∧
  ∀ (i : Nat) (s : QueryStep), (get_execution_order p)[i]? = some s →
    ∀ d ∈ s.depends_on, ∃ (j : Nat) (t : QueryStep),
      j < i ∧ (get_execution_order p)[j]? = some t ∧ t.id = d

/-- Relation between a step fed to the per-step loop and the step the loop
returns: identity, description and dependency list are untouched, and the
outcome is either completed-with-results (error and untouched) or
failed-with-error (results, duration, row count untouched). -/
def stepChar (src out : QueryStep) : Prop :=
  out.id = src.id ∧ out.description = src.description ∧
  out.depends_on = src.depends_on ∧
  ((out.status = QueryStatus.completed ∧ (∃ r, out.results = some r) ∧
      out.error = src.error ∧ out.execution_time_ms = some 0 ∧
      (∃ n, out.row_count = some n)) ∨
   (out.status = QueryStatus.failed ∧ (∃ e, out.error = some e) ∧
      out.results = src.results ∧ out.execution_time_ms = src.execution_time_ms ∧
      out.row_count = src.row_count))

/-- What the serialization round trip does to one step: identity, purpose,
query text and dependency list survive; all execution state resets to the
dataclass defaults. -/
def resetStep (q : QueryStep) : QueryStep :=
  { id := q.id, description := q.description, sql := q.sql,
    depends_on := q.depends_on }

/-- What the serialization round trip does to a plan: the steps reset, the
final step id and the question survive, the total duration resets. -/
def restorePlan (p : QueryPlan) : QueryPlan :=
  { queries := p.queries.map resetStep,
    final_query_id := p.final_query_id, question := p.question,
    total_execution_time_ms := none }

/-! ### Concrete inputs used by counterexamples and witnesses -/

/-- A step whose only dependency is `q1`. -/
def emptyDepStep : QueryStep :=
  { id := "q2", description := "count rows of q1",
    sql := "SELECT COUNT(*) AS c FROM q1", depends_on := ["q1"] }

/-- A results cache in which `q1` completed with zero rows. -/
def emptyDepCache : List (String × QueryResults) :=
  [("q1", { columns := ["total"], rows := [] })]

/-- A well-formed three-step chain plan (fresh, validates successfully). -/
def demoPlan : QueryPlan :=
  { queries :=
      [{ id := "q1", description := "base", sql := "SELECT 1" },
       { id := "q2", description := "mid", sql := "SELECT * FROM q1", depends_on := ["q1"] },
       { id := "q3", description := "top", sql := "SELECT * FROM q2", depends_on := ["q2"] }],
    final_query_id := "q3" }

/-- A two-step plan whose dependency relation is the cycle a -> b -> a
(ill-formed: construction would reject it, but the scheduler is a plain
method callable on the raw data). -/
def cyclicPlan : QueryPlan :=
  { queries :=
      [{ id := "a", description := "", sql := "SELECT 1", depends_on := ["b"] },
       { id := "b", description := "", sql := "SELECT 2", depends_on := ["a"] }],
    final_query_id := "a" }

/-- Environment whose executor always fails with a retryable message and
whose corrector always returns a query. -/
def alwaysFailEnv : ExecEnv :=
  { executor := fun _ => Except.error "syntax error",
    corrector := fun s _ _ _ => Except.ok (s ++ " "),
    maxRetries := 2, maxResults := 1000 }

/-- Environment that answers `SELECT 1` with one row and fails everything
else with a non-retryable message. -/
def midFailEnv : ExecEnv :=
  { executor := fun s =>
      if s = "SELECT 1" then Except.ok [[("c", Value.intg 7)]] else Except.error "boom",
    corrector := fun s _ _ _ => Except.ok s,
    maxRetries := 2, maxResults := 1000 }

/-! ## Theorems -/

/-- C1: evaluation of `_resolve_dependencies` at the failing input.  For a
step depending on `q1` whose cached result has zero rows, the resolver emits
no relation for `q1` at all and returns the step's query text unchanged, so
the dependency is left unresolved instead of being made addressable as a
zero-row relation. -/
theorem c1_empty_result_dependency_not_inlined :
    resolve_dependencies emptyDepStep emptyDepCache = emptyDepStep.sql ∧
    resolve_dependencies emptyDepStep emptyDepCache = "SELECT COUNT(*) AS c FROM q1" := by
  constructor <;> rfl

/-- C8: `_is_retryable_error` classifies a message matching both a retryable
and a non-retryable pattern as non-retryable, and a message matching no
listed pattern as non-retryable. -/
theorem c8_nonretryable_priority_and_unknown_default (msg : String) :
    (((∃ pr ∈ retryable_patterns, strContains (strLower msg) pr = true) ∧
      (∃ pn ∈ non_retryable_patterns, strContains (strLower msg) pn = true)) →
        is_retryable_error msg = false) ∧
    ((∀ pat ∈ non_retryable_patterns ++ retryable_patterns,
        strContains (strLower msg) pat = false) →
        is_retryable_error msg = false) := by
  constructor
  · rintro ⟨-, pn, hpn, hc⟩
    have h1 : non_retryable_patterns.any (fun pat => strContains (strLower msg) pat) = true :=
      List.any_eq_true.mpr ⟨pn, hpn, hc⟩
    unfold is_retryable_error
    simp only [h1, if_true]
  · intro hall
    have h1 : non_retryable_patterns.any (fun pat => strContains (strLower msg) pat) = false := by
      rcases h : non_retryable_patterns.any (fun pat => strContains (strLower msg) pat) with _ | _
      · rfl
      · rcases List.any_eq_true.mp h with ⟨pn, hpn, hc⟩
        have := hall pn (List.mem_append.mpr (Or.inl hpn))
        rw [this] at hc; exact absurd hc (by simp)
    have h2 : retryable_patterns.any (fun pat => strContains (strLower msg) pat) = false := by
      rcases h : retryable_patterns.any (fun pat => strContains (strLower msg) pat) with _ | _
      · rfl
      · rcases List.any_eq_true.mp h with ⟨pr, hpr, hc⟩
        have := hall pr (List.mem_append.mpr (Or.inr hpr))
        rw [this] at hc; exact absurd hc (by simp)
    unfold is_retryable_error
    simp only [h1, h2, if_false, Bool.false_eq_true]

/-- C8 witness: "permission denied near SELECT" matches the retryable
pattern "near" and the non-retryable pattern "permission denied", and is
classified as non-retryable. -/
theorem c8_witness :
    (∃ pr ∈ retryable_patterns, strContains (strLower "permission denied near SELECT") pr = true) ∧
    (∃ pn ∈ non_retryable_patterns, strContains (strLower "permission denied near SELECT") pn = true) ∧
    is_retryable_error "permission denied near SELECT" = false :=
  ⟨by decide, by decide,
   (c8_nonretryable_priority_and_unknown_default "permission denied near SELECT").1
     ⟨by decide, by decide⟩⟩

/-- Retry-budget bookkeeping of the per-step while-loop: with every
execution failing retryably and every correction succeeding, a loop entered
at `retry_count` with matching fuel submits exactly `fuel` queries to the
executor and ends with the step `Failed`. -/
theorem runStepLoop_budget (env : ExecEnv) (fid : String)
    (hex : ∀ s, ∃ e, env.executor s = Except.error e ∧ is_retryable_error e = true)
    (hco : ∀ a b c d, ∃ s2, env.corrector a b c d = Except.ok s2) :
    ∀ (fuel rc : Nat) (q : QueryStep) (sql : String),
      rc + fuel = env.maxRetries + 1 → rc ≤ env.maxRetries →
      (runStepLoop env fid fuel q rc sql).1.status = QueryStatus.failed ∧
      (runStepLoop env fid fuel q rc sql).2.length = fuel := by
  intro fuel
  induction fuel with
  | zero => intro rc q sql h1 h2; omega
  | succ n ih =>
    intro rc q sql h1 h2
    obtain ⟨e, he, hre⟩ := hex sql
    rcases Nat.lt_or_ge rc env.maxRetries with hlt | hge
    · obtain ⟨s2, hs2⟩ := hco sql e q.description (rc + 1)
      have hcond : (rc < env.maxRetries ∧ is_retryable_error e = true) := ⟨hlt, hre⟩
      have := ih (rc + 1) { q with sql := s2 } s2 (by omega) (by omega)
      simp only [runStepLoop, he, hs2, if_pos hcond]
      exact ⟨this.1, by simpa using this.2⟩
    · have hrc : rc = env.maxRetries := Nat.le_antisymm h2 hge
      have hcond : ¬ (rc < env.maxRetries ∧ is_retryable_error e = true) := by
        intro hc; omega
      constructor
      · simp only [runStepLoop, he, if_neg hcond]
      · simp only [runStepLoop, he, if_neg hcond, List.length_singleton]
        omega

/-- C4: for a step whose every execution attempt fails with a retryable
error and whose corrector always returns a (still failing) query, the
per-step loop of `execute_plan` submits exactly `MAX_SQL_ERROR_RETRIES + 1`
queries to the executor (the original plus one per correction) and then
marks the step `Failed`; it is never retried beyond that bound. -/
theorem c4_retry_budget_enforced (env : ExecEnv) (fid : String) (q : QueryStep)
    (cache : List (String × QueryResults))
    (hex : ∀ s, ∃ e, env.executor s = Except.error e ∧ is_retryable_error e = true)
    (hco : ∀ a b c d, ∃ s2, env.corrector a b c d = Except.ok s2) :
    (runStep env fid q cache).2.length = env.maxRetries + 1 ∧
    (runStep env fid q cache).1.status = QueryStatus.failed := by
  have := runStepLoop_budget env fid hex hco (env.maxRetries + 1) 0 q
    (resolve_dependencies q cache) (by omega) (by omega)
  exact ⟨this.2, this.1⟩

/-- C4 witness: with budget 2, a step under an always-retryably-failing
executor and a total corrector is attempted exactly 3 times and fails. -/
theorem c4_witness :
    (∀ s, ∃ e, alwaysFailEnv.executor s = Except.error e ∧ is_retryable_error e = true) ∧
    (∀ a b c d, ∃ s2, alwaysFailEnv.corrector a b c d = Except.ok s2) ∧
    (runStep alwaysFailEnv "q1" emptyDepStep []).2.length = alwaysFailEnv.maxRetries + 1 ∧
    (runStep alwaysFailEnv "q1" emptyDepStep []).1.status = QueryStatus.failed :=
  ⟨fun s => ⟨"syntax error", rfl, by decide⟩,
   fun a b c d => ⟨a ++ " ", rfl⟩,
   c4_retry_budget_enforced alwaysFailEnv "q1" emptyDepStep []
     (fun s => ⟨"syntax error", rfl, by decide⟩)
     (fun a b c d => ⟨a ++ " ", rfl⟩)⟩

/-! ### Validation only reads step ids and dependency lists -/

/-- `find?` only depends on the predicate's values on the list. -/
theorem find?_congr {α : Type} (l : List α) (f g : α → Bool)
    (h : ∀ a ∈ l, f a = g a) : l.find? f = l.find? g := by
  induction l with
  | nil => rfl
  | cons a t ih =>
    have ha := h a (by simp)
    have ht := ih (fun b hb => h b (by simp [hb]))
    simp only [List.find?]
    rw [ha, ht]

/-- A map that preserves ids and dependency lists commutes with
`get_query` up to applying the map to the result. -/
theorem get_query_map (qs : List QueryStep) (f : QueryStep → QueryStep)
    (fin : String) (qa qb : Option String) (ta tb : Option Nat)
    (hf : ∀ q, (f q).id = q.id ∧ (f q).depends_on = q.depends_on) (x : String) :
    QueryPlan.get_query ⟨qs.map f, fin, qa, ta⟩ x =
      (QueryPlan.get_query ⟨qs, fin, qb, tb⟩ x).map f := by
  unfold QueryPlan.get_query
  simp only
  rw [List.find?_map]
  congr 1
  apply find?_congr
  intro a _
  simp [Function.comp, (hf a).1]

/-- The DFS is invariant under a map preserving ids and dependency lists. -/
theorem visit_map (qs : List QueryStep) (f : QueryStep → QueryStep)
    (fin : String) (qa qb : Option String) (ta tb : Option Nat)
    (hf : ∀ q, (f q).id = q.id ∧ (f q).depends_on = q.depends_on) :
    ∀ fuel : Nat,
      (∀ V R x, visit ⟨qs.map f, fin, qa, ta⟩ fuel V R x =
        visit ⟨qs, fin, qb, tb⟩ fuel V R x) ∧
      (∀ V R ds, visitList ⟨qs.map f, fin, qa, ta⟩ fuel V R ds =
        visitList ⟨qs, fin, qb, tb⟩ fuel V R ds) := by
  intro fuel
  induction fuel with
  | zero => exact ⟨fun V R x => rfl, fun V R ds => rfl⟩
  | succ n ih =>
    constructor
    · intro V R x
      simp only [visit]
      rw [get_query_map qs f fin qa qb ta tb hf x]
      cases hq : QueryPlan.get_query ⟨qs, fin, qb, tb⟩ x with
      | none => rfl
      | some q =>
        simp only [Option.map_some']
        rw [(hf q).2, ih.2]
    · intro V R ds
      cases ds with
      | nil => rfl
      | cons d ds2 =>
        simp only [visitList]
        rw [ih.1]
        cases visit ⟨qs, fin, qb, tb⟩ n V R d with
        | none => rfl
        | some v2 => simp only; rw [ih.2]

/-- The cycle check is invariant under a map preserving ids and dependency
lists. -/
theorem has_circular_map (qs : List QueryStep) (f : QueryStep → QueryStep)
    (fin : String) (qa qb : Option String) (ta tb : Option Nat)
    (hf : ∀ q, (f q).id = q.id ∧ (f q).depends_on = q.depends_on) :
    has_circular_dependencies ⟨qs.map f, fin, qa, ta⟩ =
      has_circular_dependencies ⟨qs, fin, qb, tb⟩ := by
  have hfuel : dfsFuel ⟨qs.map f, fin, qa, ta⟩ = dfsFuel ⟨qs, fin, qb, tb⟩ := by
    unfold dfsFuel
    simp only [List.length_map, List.map_map]
    have hsum : List.map ((fun q => q.depends_on.length) ∘ f) qs =
        List.map (fun q => q.depends_on.length) qs :=
      List.map_congr_left (fun a _ => by simp [Function.comp, (hf a).2])
    rw [hsum]
  have haux : ∀ (l : List QueryStep) (V : List String),
      hasCircularAux ⟨qs.map f, fin, qa, ta⟩ (dfsFuel ⟨qs, fin, qb, tb⟩) (l.map f) V =
      hasCircularAux ⟨qs, fin, qb, tb⟩ (dfsFuel ⟨qs, fin, qb, tb⟩) l V := by
    intro l
    induction l with
    | nil => intro V; rfl
    | cons q t ih =>
      intro V
      simp only [List.map_cons, hasCircularAux, (hf q).1]
      by_cases hm : q.id ∈ V
      · simp only [if_pos hm, ih]
      · simp only [if_neg hm,
          (visit_map qs f fin qa qb ta tb hf (dfsFuel ⟨qs, fin, qb, tb⟩)).1]
        cases visit ⟨qs, fin, qb, tb⟩ (dfsFuel ⟨qs, fin, qb, tb⟩) V [] q.id with
        | none => rfl
        | some v2 => simp only [ih]
  unfold has_circular_dependencies
  simp only
  rw [hfuel, haux]

/-- Validation is invariant under a map preserving ids and dependency lists
(it never reads any other step field, nor the question or timing fields). -/
theorem validate_plan_map (qs : List QueryStep) (f : QueryStep → QueryStep)
    (fin : String) (qa qb : Option String) (ta tb : Option Nat)
    (hf : ∀ q, (f q).id = q.id ∧ (f q).depends_on = q.depends_on) :
    validate_plan ⟨qs.map f, fin, qa, ta⟩ = validate_plan ⟨qs, fin, qb, tb⟩ := by
  have hids : (qs.map f).map (fun q => q.id) = qs.map (fun q => q.id) := by
    rw [List.map_map]
    apply List.map_congr_left
    intro a _
    simp [Function.comp, (hf a).1]
  have hfind : (qs.map f).find?
        (fun q => q.depends_on.any (fun d => !((qs.map (fun q2 => q2.id)).contains d)))
      = (qs.find?
        (fun q => q.depends_on.any (fun d => !((qs.map (fun q2 => q2.id)).contains d)))).map f := by
    rw [List.find?_map]
    congr 1
    apply find?_congr
    intro a _
    simp [Function.comp, (hf a).2]
  simp only [validate_plan, hids]
  rw [hfind, has_circular_map qs f fin qa qb ta tb hf]
  cases hq : qs.find?
      (fun q => q.depends_on.any (fun d => !((qs.map (fun q2 => q2.id)).contains d))) with
  | none => rfl
  | some q =>
    simp only [Option.map_some']
    rw [(hf q).1, (hf q).2]

/-- C10: round-tripping any validly constructed plan through
`to_dict`/`from_dict` reconstructs each step's id, description, query text
and dependency list together with the final step id and the question, but no
execution state: every restored step is `Pending` with no results, error,
row count or duration, and the plan-level duration is reset. -/
theorem c10_serialization_round_trip (p : QueryPlan)
    (h : validate_plan p = Except.ok ()) :
    QueryPlan.from_dict (QueryPlan.to_dict p) = Except.ok (restorePlan p) := by
  unfold QueryPlan.from_dict QueryPlan.to_dict
  simp only [List.map_map]
  have hmap : List.map (QueryStep.from_dict ∘ QueryStep.to_dict) p.queries =
      List.map resetStep p.queries :=
    List.map_congr_left (fun a _ => rfl)
  rw [hmap]
  have hval : validate_plan
        ⟨p.queries.map resetStep, p.final_query_id, p.question, none⟩ =
      validate_plan
        ⟨p.queries, p.final_query_id, p.question, p.total_execution_time_ms⟩ :=
    validate_plan_map p.queries resetStep p.final_query_id p.question p.question
      none p.total_execution_time_ms (fun q => ⟨rfl, rfl⟩)
  have h2 : validate_plan
      ⟨p.queries, p.final_query_id, p.question, p.total_execution_time_ms⟩ =
      Except.ok () := h
  rw [hval, h2]
  rfl

/-- C10 witness: the round trip at a concrete validly constructed plan. -/
theorem c10_witness :
    validate_plan demoPlan = Except.ok () ∧
    QueryPlan.from_dict (QueryPlan.to_dict demoPlan) = Except.ok (restorePlan demoPlan) :=
  ⟨rfl, c10_serialization_round_trip demoPlan rfl⟩

/-! ### Soundness of the cycle detector: a `false` answer means no cycle -/

/-- Joint specification of the DFS frames: a frame that returns without
reporting a cycle only grows the visited set, marks its node visited, was not
called on a node of the current stack, and preserves the invariant that no
finished node lies on a dependency cycle. -/
theorem visit_spec (p : QueryPlan) : ∀ fuel : Nat,
    (∀ V R x V2, visit p fuel V R x = some V2 →
      (∀ y ∈ V, y ∈ V2) ∧ x ∈ V2 ∧ x ∉ R ∧
      ((∀ y ∈ R, y ∈ V) → blackSafe p V R → blackSafe p V2 R)) ∧
    (∀ V R ds V2, visitList p fuel V R ds = some V2 →
      (∀ y ∈ V, y ∈ V2) ∧ (∀ d ∈ ds, d ∈ V2 ∧ d ∉ R) ∧
      ((∀ y ∈ R, y ∈ V) → blackSafe p V R → blackSafe p V2 R)) := by
  intro fuel
  induction fuel with
  | zero =>
    constructor
    · intro V R x V2 h; simp [visit] at h
    · intro V R ds V2 h; simp [visitList] at h
  | succ n ih =>
    constructor
    · intro V R x V2 h
      simp only [visit] at h
      by_cases hR : x ∈ R
      · rw [if_pos hR] at h; cases h
      rw [if_neg hR] at h
      by_cases hV : x ∈ V
      · rw [if_pos hV] at h
        injection h with h
        subst h
        exact ⟨fun y hy => hy, hV, hR, fun _ hb => hb⟩
      rw [if_neg hV] at h
      cases hq : p.get_query x with
      | none =>
        rw [hq] at h
        injection h with h
        subst h
        refine ⟨fun y hy => List.mem_cons_of_mem _ hy, List.mem_cons_self _ _, hR, ?_⟩
        intro hRV hB b hb hbR
        rcases List.mem_cons.mp hb with hbx | hbV
        · subst hbx
          intro hcyc
          obtain ⟨c, he, -⟩ := Relation.TransGen.head'_iff.mp hcyc
          obtain ⟨q, hq2, -⟩ := he
          rw [hq] at hq2
          cases hq2
        · exact hB b hbV hbR
      | some q =>
        rw [hq] at h
        obtain ⟨hsub, hdeps, hpres⟩ := ih.2 (x :: V) (x :: R) q.depends_on V2 h
        refine ⟨fun y hy => hsub y (List.mem_cons_of_mem _ hy),
          hsub x (List.mem_cons_self _ _), hR, ?_⟩
        intro hRV hB
        have hRV1 : ∀ y ∈ x :: R, y ∈ x :: V := by
          intro y hy
          rcases List.mem_cons.mp hy with hyx | hyR
          · exact hyx ▸ List.mem_cons_self _ _
          · exact List.mem_cons_of_mem _ (hRV y hyR)
        have hB1 : blackSafe p (x :: V) (x :: R) := by
          intro b hb hbR
          have hbx : b ≠ x := fun hbx => hbR (hbx ▸ List.mem_cons_self _ _)
          rcases List.mem_cons.mp hb with hbx2 | hbV
          · exact absurd hbx2 hbx
          · exact hB b hbV (fun hbR2 => hbR (List.mem_cons_of_mem _ hbR2))
        have hB2 : blackSafe p V2 (x :: R) := hpres hRV1 hB1
        intro b hb hbR
        by_cases hbx : b = x
        · subst hbx
          intro hcyc
          obtain ⟨c, he, hrc⟩ := Relation.TransGen.head'_iff.mp hcyc
          obtain ⟨q2, hq2, hmem⟩ := he
          rw [hq] at hq2
          injection hq2 with hq2
          subst hq2
          have hcd := hdeps c hmem
          exact hB2 c hcd.1 hcd.2 (Relation.TransGen.tail' hrc ⟨q, hq, hmem⟩)
        · exact hB2 b hb (by
            intro hmem
            rcases List.mem_cons.mp hmem with h1 | h2
            · exact hbx h1
            · exact hbR h2)
    · intro V R ds V2 h
      simp only [visitList] at h
      cases ds with
      | nil =>
        injection h with h
        subst h
        exact ⟨fun y hy => hy, by simp, fun _ hb => hb⟩
      | cons d ds2 =>
        replace h : (match visit p n V R d with
            | none => none
            | some v2 => visitList p n v2 R ds2) = some V2 := h
        cases hv : visit p n V R d with
        | none => rw [hv] at h; cases h
        | some v1 =>
          rw [hv] at h
          obtain ⟨hsub1, hd1, hdR, hpres1⟩ := ih.1 V R d v1 hv
          obtain ⟨hsub2, hds2, hpres2⟩ := ih.2 v1 R ds2 V2 h
          refine ⟨fun y hy => hsub2 y (hsub1 y hy), ?_, ?_⟩
          · intro e he
            rcases List.mem_cons.mp he with h1 | h2
            · exact ⟨h1 ▸ hsub2 d hd1, h1 ▸ hdR⟩
            · exact hds2 e h2
          · intro hRV hB
            exact hpres2 (fun y hy => hsub1 y (hRV y hy)) (hpres1 hRV hB)

/-- The top-level DFS loop: a `false` answer certifies that no id of the
visited set nor of the remaining steps lies on a dependency cycle. -/
theorem hasCircularAux_safe (p : QueryPlan) (fuel : Nat) :
    ∀ (qs : List QueryStep) (V : List String),
      hasCircularAux p fuel qs V = false → blackSafe p V [] →
      ∀ x, (x ∈ V ∨ x ∈ qs.map (fun q => q.id)) →
        ¬ Relation.TransGen (depEdge p) x x := by
  intro qs
  induction qs with
  | nil =>
    intro V h hB x hx
    rcases hx with hx | hx
    · exact hB x hx (by simp)
    · simp at hx
  | cons q t ih =>
    intro V h hB x hx
    simp only [hasCircularAux] at h
    by_cases hm : q.id ∈ V
    · rw [if_pos hm] at h
      apply ih V h hB
      rcases hx with hx | hx
      · exact Or.inl hx
      · rw [List.map_cons] at hx
        rcases List.mem_cons.mp hx with h1 | h2
        · exact Or.inl (h1 ▸ hm)
        · exact Or.inr h2
    · rw [if_neg hm] at h
      cases hv : visit p fuel V [] q.id with
      | none => rw [hv] at h; cases h
      | some v2 =>
        rw [hv] at h
        obtain ⟨hsub, hqin, -, hpres⟩ := (visit_spec p fuel).1 V [] q.id v2 hv
        apply ih v2 h (hpres (by simp) hB)
        rcases hx with hx | hx
        · exact Or.inl (hsub x hx)
        · rw [List.map_cons] at hx
          rcases List.mem_cons.mp hx with h1 | h2
          · exact Or.inl (h1 ▸ hqin)
          · exact Or.inr h2

/-- If `_has_circular_dependencies` answers `false`, the dependency relation
of the plan is acyclic. -/
theorem dfs_false_acyclic (p : QueryPlan)
    (h : has_circular_dependencies p = false) : ¬ hasCycleProp p := by
  rintro ⟨a, hcyc⟩
  have ha : a ∈ p.queries.map (fun q => q.id) := by
    obtain ⟨c, he, -⟩ := Relation.TransGen.head'_iff.mp hcyc
    obtain ⟨q, hq, -⟩ := he
    have hmem : q ∈ p.queries := List.mem_of_find?_eq_some hq
    have hid : q.id = a := by
      have := List.find?_some hq
      simpa using this
    exact List.mem_map.mpr ⟨q, hmem, hid⟩
  exact hasCircularAux_safe p (dfsFuel p) p.queries [] h
    (by intro b hb; simp at hb) a (Or.inr ha) hcyc

/-- The `len(ids) != len(set(ids))` test is exactly duplicate detection. -/
theorem length_eq_dedup_iff_nodup (l : List String) :
    l.length = l.dedup.length ↔ l.Nodup := by
  constructor
  · intro h
    have hsub : List.Sublist l.dedup l := List.dedup_sublist l
    have : l.dedup = l := hsub.eq_of_length h.symm
    rw [← this]
    exact l.nodup_dedup
  · intro h
    rw [List.dedup_eq_self.mpr h]

/-- C3: plan construction either yields a validated plan or raises and
yields nothing (the result is `ok` or `error`); it raises on duplicate step
ids, on a final id not among the step ids, on a dependency naming a
non-existent step, and — when the three structural checks pass — a cyclic
dependency relation is rejected with exactly the cyclic-dependency error. -/
theorem c3_construction_validation (p : QueryPlan) :
    ((∃ u, validate_plan p = Except.ok u) ∨ (∃ e, validate_plan p = Except.error e)) ∧
    (¬ (p.queries.map (fun q => q.id)).Nodup →
      validate_plan p = Except.error "Query IDs must be unique") ∧
    ((p.queries.map (fun q => q.id)).Nodup →
      p.final_query_id ∉ p.queries.map (fun q => q.id) →
      ∃ e, validate_plan p = Except.error e) ∧
    ((p.queries.map (fun q => q.id)).Nodup →
      p.final_query_id ∈ p.queries.map (fun q => q.id) →
      (∃ q ∈ p.queries, ∃ d ∈ q.depends_on, d ∉ p.queries.map (fun q2 => q2.id)) →
      ∃ e, validate_plan p = Except.error e) ∧
    ((p.queries.map (fun q => q.id)).Nodup →
      p.final_query_id ∈ p.queries.map (fun q => q.id) →
      (∀ q ∈ p.queries, ∀ d ∈ q.depends_on, d ∈ p.queries.map (fun q2 => q2.id)) →
      hasCycleProp p →
      validate_plan p = Except.error "Circular dependencies detected in query plan") := by
  refine ⟨?_, ?_, ?_, ?_, ?_⟩
  · cases h : validate_plan p with
    | ok u => exact Or.inl ⟨u, rfl⟩
    | error e => exact Or.inr ⟨e, rfl⟩
  · intro hdup
    have hlen : (p.queries.map (fun q => q.id)).length ≠
        (p.queries.map (fun q => q.id)).dedup.length :=
      fun h => hdup ((length_eq_dedup_iff_nodup _).mp h)
    simp only [validate_plan]
    rw [if_pos hlen]
  · intro hnd hfin
    have hlen : ¬ ((p.queries.map (fun q => q.id)).length ≠
        (p.queries.map (fun q => q.id)).dedup.length) :=
      fun h => h ((length_eq_dedup_iff_nodup _).mpr hnd)
    simp only [validate_plan]
    rw [if_neg hlen, if_pos hfin]
    exact ⟨_, rfl⟩
  · intro hnd hfin hbad
    have hlen : ¬ ((p.queries.map (fun q => q.id)).length ≠
        (p.queries.map (fun q => q.id)).dedup.length) :=
      fun h => h ((length_eq_dedup_iff_nodup _).mpr hnd)
    have hfin2 : ¬ p.final_query_id ∉ p.queries.map (fun q => q.id) := fun h => h hfin
    obtain ⟨q, hq, d, hd, hdo⟩ := hbad
    have hfind : (p.queries.find? (fun q =>
        q.depends_on.any (fun d => !((p.queries.map (fun q2 => q2.id)).contains d)))) ≠ none := by
      intro hnone
      have := List.find?_eq_none.mp hnone q hq
      apply this
      apply List.any_eq_true.mpr
      refine ⟨d, hd, ?_⟩
      simp only [Bool.not_eq_true', ← Bool.not_eq_true]
      intro hc
      exact hdo (by simpa using hc)
    simp only [validate_plan]
    rw [if_neg hlen, if_neg hfin2]
    cases hfd : p.queries.find? (fun q =>
        q.depends_on.any (fun d => !((p.queries.map (fun q2 => q2.id)).contains d))) with
    | none => exact absurd hfd hfind
    | some q2 => exact ⟨_, rfl⟩
  · intro hnd hfin hdeps hcyc
    have hlen : ¬ ((p.queries.map (fun q => q.id)).length ≠
        (p.queries.map (fun q => q.id)).dedup.length) :=
      fun h => h ((length_eq_dedup_iff_nodup _).mpr hnd)
    have hfin2 : ¬ p.final_query_id ∉ p.queries.map (fun q => q.id) := fun h => h hfin
    have hfind : (p.queries.find? (fun q =>
        q.depends_on.any (fun d => !((p.queries.map (fun q2 => q2.id)).contains d)))) = none := by
      apply List.find?_eq_none.mpr
      intro q hq hany
      obtain ⟨d, hd, hc⟩ := List.any_eq_true.mp hany
      have hmem := hdeps q hq d hd
      rw [Bool.not_eq_true'] at hc
      have hcc : ((p.queries.map (fun q2 => q2.id)).contains d) = true := by
        simpa using hmem
      rw [hcc] at hc
      cases hc
    have hcirc : has_circular_dependencies p = true := by
      cases hcb : has_circular_dependencies p with
      | false => exact absurd hcyc (dfs_false_acyclic p hcb)
      | true => rfl
    simp only [validate_plan]
    rw [if_neg hlen, if_neg hfin2, hfind]
    simp only [hcirc, if_true]

/-- C3 witness: the concrete two-step cycle has unique ids, a resolvable
final id and resolvable dependencies, yet construction raises exactly the
cyclic-dependency error. -/
theorem c3_witness :
    validate_plan cyclicPlan = Except.error "Circular dependencies detected in query plan" := by
  have hcyc : hasCycleProp cyclicPlan := by
    refine ⟨"a", Relation.TransGen.head (b := "b") ?_ (Relation.TransGen.single ?_)⟩
    · exact ⟨_, rfl, by decide⟩
    · exact ⟨_, rfl, by decide⟩
  exact (c3_construction_validation cyclicPlan).2.2.2.2 (by decide) (by decide)
    (by decide) hcyc

/-! ### Correctness of the Kahn scheduler -/

/-- Decrementing along a dependents list subtracts the occurrence count. -/
theorem processDeps_deg (ds : List String) :
    ∀ (deg : String → Int) (x : String),
      (processDeps ds deg).1 x = deg x - (ds.count x : Int) := by
  induction ds with
  | nil => intro deg x; simp [processDeps]
  | cons d t ih =>
    intro deg x
    simp only [processDeps]
    rw [ih]
    by_cases hx : x = d
    · subst hx
      rw [Function.update_same, List.count_cons_self]
      push_cast
      omega
    · rw [Function.update_noteq hx, List.count_cons_of_ne hx]

/-- An id is enqueued by the decrement pass exactly when its current degree
is positive and no larger than its occurrence count in the pass. -/
theorem processDeps_mem (ds : List String) :
    ∀ (deg : String → Int) (x : String),
      x ∈ (processDeps ds deg).2 ↔ (1 ≤ deg x ∧ deg x ≤ (ds.count x : Int)) := by
  induction ds with
  | nil =>
    intro deg x
    simp only [processDeps, List.not_mem_nil, false_iff, List.count_nil]
    push_cast
    omega
  | cons d t ih =>
    intro deg x
    simp only [processDeps]
    by_cases hv : deg d - 1 = 0
    · rw [if_pos hv]
      by_cases hx : x = d
      · subst hx
        simp only [List.mem_cons, true_or, true_iff]
        rw [List.count_cons_self]
        push_cast
        constructor
        · omega
        · omega
      · simp only [List.mem_cons, hx, false_or]
        rw [ih, Function.update_noteq hx, List.count_cons_of_ne hx]
    · rw [if_neg hv]
      by_cases hx : x = d
      · subst hx
        rw [ih, Function.update_same, List.count_cons_self]
        push_cast
        constructor
        · rintro ⟨h1, h2⟩
          exact ⟨by omega, by omega⟩
        · rintro ⟨h1, h2⟩
          exact ⟨by omega, by omega⟩
      · rw [ih, Function.update_noteq hx, List.count_cons_of_ne hx]

/-- The decrement pass enqueues each id at most once. -/
theorem processDeps_nodup (ds : List String) :
    ∀ deg : String → Int, (processDeps ds deg).2.Nodup := by
  induction ds with
  | nil => intro deg; simp [processDeps]
  | cons d t ih =>
    intro deg
    simp only [processDeps]
    by_cases hv : deg d - 1 = 0
    · rw [if_pos hv]
      refine List.Nodup.cons ?_ (ih _)
      intro hmem
      have := (processDeps_mem t (Function.update deg d (deg d - 1)) d).mp hmem
      rw [Function.update_same] at this
      omega
    · rw [if_neg hv]
      exact ih _

/-- Every entry of a dependents list is the id of some step. -/
theorem dependents_subset (p : QueryPlan) (qid x : String)
    (h : x ∈ dependents p qid) : x ∈ p.queries.map (fun q => q.id) := by
  obtain ⟨q, hq, hx⟩ := List.mem_flatMap.mp h
  have := List.eq_of_mem_replicate hx
  exact List.mem_map.mpr ⟨q, hq, this.symm⟩

/-- A dependents list mentions nothing outside the step ids. -/
theorem dependents_count_zero (p : QueryPlan) (qid x : String)
    (h : x ∉ p.queries.map (fun q => q.id)) : (dependents p qid).count x = 0 :=
  List.count_eq_zero.mpr (fun hmem => h (dependents_subset p qid x hmem))

/-- With unique step ids, an id occurs in `dependents p qid` once per
occurrence of `qid` in that step's dependency list. -/
theorem dependents_count (qid : String) :
    ∀ (qs : List QueryStep), (qs.map (fun q => q.id)).Nodup →
      ∀ q ∈ qs,
        (qs.flatMap (fun q2 => List.replicate (q2.depends_on.count qid) q2.id)).count q.id =
          q.depends_on.count qid := by
  intro qs
  induction qs with
  | nil => intro _ q hq; cases hq
  | cons q0 t ih =>
    intro hnd q hq
    have hnd2 : (t.map (fun q => q.id)).Nodup := by
      rw [List.map_cons] at hnd
      exact hnd.of_cons
    have hq0 : q0.id ∉ t.map (fun q => q.id) := by
      rw [List.map_cons] at hnd
      exact (List.nodup_cons.mp hnd).1
    rw [List.flatMap_cons, List.count_append]
    rcases List.mem_cons.mp hq with hq1 | hq2
    · subst hq1
      have hzero : (t.flatMap (fun q2 =>
          List.replicate (q2.depends_on.count qid) q2.id)).count q.id = 0 := by
        apply List.count_eq_zero.mpr
        intro hmem
        obtain ⟨q2, hq2, hx⟩ := List.mem_flatMap.mp hmem
        have := List.eq_of_mem_replicate hx
        exact hq0 (List.mem_map.mpr ⟨q2, hq2, this.symm⟩)
      rw [hzero, List.count_replicate]
      simp only [beq_self_eq_true, if_true, Nat.add_zero]
    · have hne : q.id ≠ q0.id := by
        intro he
        exact hq0 (he ▸ List.mem_map.mpr ⟨q, hq2, rfl⟩)
      rw [List.count_replicate]
      have hne2 : ¬ (q0.id == q.id) = true := by simpa using hne.symm
      rw [if_neg hne2, Nat.zero_add]
      exact ih hnd2 q hq2

/-- With unique step ids, `get_query` returns each step at its own id. -/
theorem get_query_self :
    ∀ (qs : List QueryStep), (qs.map (fun q => q.id)).Nodup →
      ∀ q ∈ qs, qs.find? (fun q2 => q2.id = q.id) = some q := by
  intro qs
  induction qs with
  | nil => intro _ q hq; cases hq
  | cons q0 t ih =>
    intro hnd q hq
    have hq0 : q0.id ∉ t.map (fun q => q.id) := by
      rw [List.map_cons] at hnd
      exact (List.nodup_cons.mp hnd).1
    rcases List.mem_cons.mp hq with hq1 | hq2
    · subst hq1
      rw [List.find?_cons_of_pos]
      simp
    · have hne : q0.id ≠ q.id := by
        intro he
        exact hq0 (he ▸ List.mem_map.mpr ⟨q, hq2, rfl⟩)
      rw [List.find?_cons_of_neg]
      · apply ih ?_ q hq2
        rw [List.map_cons] at hnd
        exact hnd.of_cons
      · simpa using hne

/-- `get_query` hits only steps of the plan, at their own id. -/
theorem get_query_mem (p : QueryPlan) (x : String) (q : QueryStep)
    (h : p.get_query x = some q) : q ∈ p.queries ∧ q.id = x := by
  refine ⟨List.mem_of_find?_eq_some h, ?_⟩
  have := List.find?_some h
  simpa using this

/-- `get_query` misses ids outside the plan. -/
theorem get_query_none (p : QueryPlan) (x : String)
    (h : x ∉ p.queries.map (fun q => q.id)) : p.get_query x = none := by
  apply List.find?_eq_none.mpr
  intro q hq hpq
  apply h
  have : q.id = x := by simpa using hpq
  exact List.mem_map.mpr ⟨q, hq, this⟩

/-- Popping one more id subtracts its occurrence count from the number of
unpopped dependencies. -/
theorem countP_pop (z : String) :
    ∀ (l acc : List String), z ∉ acc →
      ((l.countP (fun d => !((acc ++ [z]).contains d)) : Int)) =
        (l.countP (fun d => !(acc.contains d)) : Int) - (l.count z : Int) := by
  intro l
  induction l with
  | nil => intro acc hz; simp
  | cons a t ih =>
    intro acc hz
    have hih := ih acc hz
    by_cases hacc : a ∈ acc
    · have hzne : z ≠ a := fun he => hz (he ▸ hacc)
      have hp1 : ¬ ((!((acc ++ [z]).contains a)) = true) := by
        simp [List.mem_append, hacc]
      have hp2 : ¬ ((!(acc.contains a)) = true) := by
        simp [hacc]
      rw [List.countP_cons_of_neg (fun d => !((acc ++ [z]).contains d)) t hp1,
        List.countP_cons_of_neg (fun d => !(acc.contains d)) t hp2,
        List.count_cons_of_ne hzne]
      exact hih
    · by_cases haz : a = z
      · have hp1 : ¬ ((!((acc ++ [z]).contains a)) = true) := by
          simp [List.mem_append, haz]
        have hp2 : ((!(acc.contains a)) = true) := by
          simp [hacc]
        rw [List.countP_cons_of_neg (fun d => !((acc ++ [z]).contains d)) t hp1,
          List.countP_cons_of_pos (fun d => !(acc.contains d)) t hp2, haz,
          List.count_cons_self]
        push_cast
        omega
      · have hzne : z ≠ a := fun he => haz he.symm
        have hp1 : ((!((acc ++ [z]).contains a)) = true) := by
          simp [List.mem_append, hacc, haz]
        have hp2 : ((!(acc.contains a)) = true) := by
          simp [hacc]
        rw [List.countP_cons_of_pos (fun d => !((acc ++ [z]).contains d)) t hp1,
          List.countP_cons_of_pos (fun d => !(acc.contains d)) t hp2,
          List.count_cons_of_ne hzne]
        push_cast
        omega

/-- The remaining in-degree is never negative. -/
theorem remDeg_nonneg (p : QueryPlan) (acc : List String) (x : String) :
    0 ≤ remDeg p acc x := by
  unfold remDeg
  cases p.get_query x with
  | none => simp
  | some q => simp

/-- A step whose dependencies are all popped has remaining in-degree zero. -/
theorem remDeg_eq_zero (p : QueryPlan) (acc : List String) (x : String)
    (h : ∀ d, depEdge p x d → d ∈ acc) : remDeg p acc x = 0 := by
  unfold remDeg
  cases hg : p.get_query x with
  | none => rfl
  | some q =>
    have hc : q.depends_on.countP (fun d => !(acc.contains d)) = 0 := by
      apply List.countP_eq_zero.mpr
      intro d hd
      have : d ∈ acc := h d ⟨q, hg, hd⟩
      simp [this]
    show ((q.depends_on.countP (fun d => !(acc.contains d)) : Int)) = 0
    exact_mod_cast hc

/-- With unique step ids, `get_query` resolves each step at its own id. -/
theorem get_query_self_plan (p : QueryPlan)
    (hNodup : (p.queries.map (fun q => q.id)).Nodup)
    (q : QueryStep) (hq : q ∈ p.queries) : p.get_query q.id = some q :=
  get_query_self p.queries hNodup q hq

/-- With unique step ids, every id occurs in `dependents p qid` once per
occurrence of `qid` in its step's dependency list. -/
theorem dependents_count_plan (p : QueryPlan)
    (hNodup : (p.queries.map (fun q => q.id)).Nodup)
    (qid x : String) (qx : QueryStep) (hgx : p.get_query x = some qx) :
    (dependents p qid).count x = qx.depends_on.count qid := by
  obtain ⟨hmem, hid⟩ := get_query_mem p x qx hgx
  have h := dependents_count qid p.queries hNodup qx hmem
  rw [hid] at h
  exact h

/-- One iteration of the Kahn while-loop preserves the loop invariant. -/
theorem kahn_preserve (p : QueryPlan)
    (hNodup : (p.queries.map (fun q => q.id)).Nodup)
    (qid : String) (rest : List String) (deg : String → Int) (acc : List String)
    (inv : KahnInv p (qid :: rest) deg acc) :
    KahnInv p (rest ++ (processDeps (dependents p qid) deg).2)
      (processDeps (dependents p qid) deg).1 (acc ++ [qid]) := by
  have hqid_ids : qid ∈ p.queries.map (fun q => q.id) :=
    inv.queueIds qid (List.mem_cons_self _ _)
  have hqid_nacc : qid ∉ acc := inv.queueAcc qid (List.mem_cons_self _ _)
  have hqid_nrest : qid ∉ rest := (List.nodup_cons.mp inv.queueNodup).1
  have hrest_nodup : rest.Nodup := (List.nodup_cons.mp inv.queueNodup).2
  -- resolve each plan id to its unique step
  have hgq : ∀ x ∈ p.queries.map (fun q => q.id),
      ∃ qx, p.get_query x = some qx ∧ qx.id = x := by
    intro x hx
    obtain ⟨q, hq, hid⟩ := List.mem_map.mp hx
    subst hid
    exact ⟨q, get_query_self_plan p hNodup q hq, rfl⟩
  have hedge_iff : ∀ (x : String) (qx : QueryStep), p.get_query x = some qx →
      ∀ d, (depEdge p x d ↔ d ∈ qx.depends_on) := by
    intro x qx hgx d
    constructor
    · rintro ⟨q2, hg2, hd⟩
      rw [hgx] at hg2
      injection hg2 with hg2
      subst hg2
      exact hd
    · intro hd
      exact ⟨qx, hgx, hd⟩
  -- queue members have remaining degree zero
  have hqdeg0 : ∀ x ∈ qid :: rest, deg x = 0 := by
    intro x hx
    have hids := inv.queueIds x hx
    rw [inv.degEq x hids]
    exact remDeg_eq_zero p acc x (fun d hd => inv.queueReady x hx d hd)
  -- popped members have remaining degree zero
  have haccdeg0 : ∀ x ∈ acc, remDeg p acc x = 0 := by
    intro x hx
    obtain ⟨i, hi⟩ := List.mem_iff_getElem?.mp hx
    exact remDeg_eq_zero p acc x (fun d hd => by
      obtain ⟨j, -, hj⟩ := inv.orderOK i x hi d hd
      exact List.getElem?_mem hj)
  -- facts about the enqueued ids
  have hmem_enq : ∀ x, x ∈ (processDeps (dependents p qid) deg).2 ↔
      (1 ≤ deg x ∧ deg x ≤ ((dependents p qid).count x : Int)) :=
    processDeps_mem (dependents p qid) deg
  have henq_ids : ∀ x ∈ (processDeps (dependents p qid) deg).2,
      x ∈ p.queries.map (fun q => q.id) := by
    intro x hx
    obtain ⟨h1, h2⟩ := (hmem_enq x).mp hx
    have hpos : 0 < (dependents p qid).count x := by
      by_contra hc
      push_neg at hc
      have h0 : (dependents p qid).count x = 0 := Nat.le_zero.mp hc
      rw [h0] at h2
      push_cast at h2
      omega
    exact dependents_subset p qid x (List.count_pos_iff.mp hpos)
  have henq_nacc : ∀ x ∈ (processDeps (dependents p qid) deg).2, x ∉ acc := by
    intro x hx hxa
    obtain ⟨h1, -⟩ := (hmem_enq x).mp hx
    have := inv.degEq x (henq_ids x hx)
    rw [haccdeg0 x hxa] at this
    omega
  have henq_nqueue : ∀ x ∈ (processDeps (dependents p qid) deg).2, x ∉ qid :: rest := by
    intro x hx hxq
    obtain ⟨h1, -⟩ := (hmem_enq x).mp hx
    have := hqdeg0 x hxq
    omega
  -- the new degree function agrees with the new remaining degree
  have hdeg2 : ∀ x ∈ p.queries.map (fun q => q.id),
      (processDeps (dependents p qid) deg).1 x = remDeg p (acc ++ [qid]) x := by
    intro x hx
    obtain ⟨qx, hgx, hidx⟩ := hgq x hx
    have hf2 := processDeps_deg (dependents p qid) deg x
    have hf3 : (dependents p qid).count x = qx.depends_on.count qid :=
      dependents_count_plan p hNodup qid x qx hgx
    have hf4 : remDeg p (acc ++ [qid]) x =
        remDeg p acc x - (qx.depends_on.count qid : Int) := by
      unfold remDeg
      rw [hgx]
      exact countP_pop qid qx.depends_on acc hqid_nacc
    rw [hf2, hf4, hf3, inv.degEq x hx]
  -- enqueued ids have all dependencies popped after the pop
  have henq_ready : ∀ x ∈ (processDeps (dependents p qid) deg).2,
      ∀ d, depEdge p x d → d ∈ acc ++ [qid] := by
    intro x hx d hd
    have hxids := henq_ids x hx
    obtain ⟨qx, hgx, -⟩ := hgq x hxids
    obtain ⟨h1, h2⟩ := (hmem_enq x).mp hx
    have hf3 : (dependents p qid).count x = qx.depends_on.count qid :=
      dependents_count_plan p hNodup qid x qx hgx
    have hle : (processDeps (dependents p qid) deg).1 x ≤ 0 := by
      rw [processDeps_deg (dependents p qid) deg x]
      omega
    have hge := remDeg_nonneg p (acc ++ [qid]) x
    have hzero : remDeg p (acc ++ [qid]) x = 0 := by
      have := hdeg2 x hxids
      omega
    unfold remDeg at hzero
    rw [hgx] at hzero
    have hcount : qx.depends_on.countP (fun d2 => !((acc ++ [qid]).contains d2)) = 0 := by
      have h7 : ((qx.depends_on.countP (fun d2 => !((acc ++ [qid]).contains d2)) : Int)) = 0 :=
        hzero
      exact_mod_cast h7
    have hall := List.countP_eq_zero.mp hcount
    have hdm := (hedge_iff x qx hgx d).mp hd
    by_contra hnm
    apply hall d hdm
    simp [hnm]
  constructor
  -- accNodup
  · rw [List.nodup_append]
    refine ⟨inv.accNodup, List.nodup_singleton qid, ?_⟩
    intro a ha hb
    rw [List.mem_singleton] at hb
    subst hb
    exact hqid_nacc ha
  -- accIds
  · intro x hx
    rcases List.mem_append.mp hx with h1 | h2
    · exact inv.accIds x h1
    · rw [List.mem_singleton] at h2
      subst h2
      exact hqid_ids
  -- queueNodup
  · rw [List.nodup_append]
    refine ⟨hrest_nodup, processDeps_nodup (dependents p qid) deg, ?_⟩
    intro a ha hb
    exact henq_nqueue a hb (List.mem_cons_of_mem _ ha)
  -- queueIds
  · intro x hx
    rcases List.mem_append.mp hx with h1 | h2
    · exact inv.queueIds x (List.mem_cons_of_mem _ h1)
    · exact henq_ids x h2
  -- queueAcc
  · intro x hx hxa
    rcases List.mem_append.mp hxa with h1 | h2
    · rcases List.mem_append.mp hx with h3 | h4
      · exact inv.queueAcc x (List.mem_cons_of_mem _ h3) h1
      · exact henq_nacc x h4 h1
    · rw [List.mem_singleton] at h2
      subst h2
      rcases List.mem_append.mp hx with h3 | h4
      · exact hqid_nrest h3
      · exact henq_nqueue x h4 (List.mem_cons_self _ _)
  -- degEq
  · exact hdeg2
  -- zeroIn
  · intro x hx hz
    by_cases hxa : x ∈ acc
    · exact Or.inl (List.mem_append.mpr (Or.inl hxa))
    by_cases hxq : x = qid
    · exact Or.inl (List.mem_append.mpr (Or.inr (by simp [hxq])))
    have hdd := processDeps_deg (dependents p qid) deg x
    rw [hz] at hdd
    have hdegnn : 0 ≤ deg x := by
      rw [inv.degEq x hx]
      exact remDeg_nonneg p acc x
    by_cases h1 : 1 ≤ deg x
    · refine Or.inr (List.mem_append.mpr (Or.inr ?_))
      exact (hmem_enq x).mpr ⟨h1, by omega⟩
    · have hz0 : deg x = 0 := by omega
      rcases inv.zeroIn x hx hz0 with h2 | h3
      · exact absurd h2 hxa
      · rcases List.mem_cons.mp h3 with h4 | h5
        · exact absurd h4 hxq
        · exact Or.inr (List.mem_append.mpr (Or.inl h5))
  -- queueReady
  · intro x hx d hd
    rcases List.mem_append.mp hx with h1 | h2
    · exact List.mem_append.mpr
        (Or.inl (inv.queueReady x (List.mem_cons_of_mem _ h1) d hd))
    · exact henq_ready x h2 d hd
  -- orderOK
  · intro i x hix d hd
    rcases Nat.lt_trichotomy i acc.length with hlt | heq | hgt
    · rw [List.getElem?_append_left hlt] at hix
      obtain ⟨j, hj, hjx⟩ := inv.orderOK i x hix d hd
      exact ⟨j, hj, by rw [List.getElem?_append_left (Nat.lt_trans hj hlt)]; exact hjx⟩
    · have hx : x = qid := by
        rw [List.getElem?_append_right (Nat.le_of_eq heq.symm)] at hix
        rw [heq] at hix
        simp at hix
        exact hix.symm
      subst hx
      have hdacc : d ∈ acc := inv.queueReady x (List.mem_cons_self _ _) d hd
      obtain ⟨j, hj⟩ := List.mem_iff_getElem?.mp hdacc
      have hjlt : j < acc.length := by
        rcases List.getElem?_eq_some.mp hj with ⟨hw, -⟩
        exact hw
      exact ⟨j, by omega, by rw [List.getElem?_append_left hjlt]; exact hj⟩
    · exfalso
      rcases List.getElem?_eq_some.mp hix with ⟨hw, -⟩
      rw [List.length_append, List.length_singleton] at hw
      omega
  -- cycOut
  · intro x hcyc
    obtain ⟨hnacc, hnq⟩ := inv.cycOut x hcyc
    have hxqid : x ≠ qid := by
      intro he
      exact hnq (he ▸ List.mem_cons_self _ _)
    constructor
    · intro hxa
      rcases List.mem_append.mp hxa with h1 | h2
      · exact hnacc h1
      · rw [List.mem_singleton] at h2
        exact hxqid h2
    · intro hxq
      rcases List.mem_append.mp hxq with h1 | h2
      · exact hnq (List.mem_cons_of_mem _ h1)
      · -- an enqueued node has all dependencies popped, impossible on a cycle
        obtain ⟨c, he, hrc⟩ := Relation.TransGen.head'_iff.mp hcyc
        have hccyc : Relation.TransGen (depEdge p) c c :=
          Relation.TransGen.tail' hrc he
        have hcacc : c ∈ acc ++ [qid] := henq_ready x h2 c he
        obtain ⟨hcnacc, hcnq⟩ := inv.cycOut c hccyc
        rcases List.mem_append.mp hcacc with h3 | h4
        · exact hcnacc h3
        · rw [List.mem_singleton] at h4
          exact hcnq (h4 ▸ List.mem_cons_self _ _)

/-- Safety of the Kahn while-loop, for any fuel: from an invariant state the
loop returns an extension of `acc` that is duplicate-free, draws from the
plan ids, is dependency-ordered, and misses every id on a dependency cycle.
The final state still satisfies the invariant for some queue and degrees. -/
theorem kahnLoop_safe (p : QueryPlan)
    (hNodup : (p.queries.map (fun q => q.id)).Nodup) :
    ∀ (fuel : Nat) (queue : List String) (deg : String → Int) (acc : List String),
      KahnInv p queue deg acc →
      (∀ x ∈ acc, x ∈ kahnLoop p fuel queue deg acc) ∧
      ∃ queue2 deg2, KahnInv p queue2 deg2 (kahnLoop p fuel queue deg acc) := by
  intro fuel
  induction fuel with
  | zero =>
    intro queue deg acc inv
    exact ⟨fun x hx => hx, queue, deg, inv⟩
  | succ n ih =>
    intro queue deg acc inv
    cases queue with
    | nil => exact ⟨fun x hx => hx, [], deg, inv⟩
    | cons qid rest =>
      have inv2 := kahn_preserve p hNodup qid rest deg acc inv
      have hrec := ih (rest ++ (processDeps (dependents p qid) deg).2)
        (processDeps (dependents p qid) deg).1 (acc ++ [qid]) inv2
      refine ⟨?_, hrec.2⟩
      intro x hx
      exact hrec.1 x (List.mem_append.mpr (Or.inl hx))

/-- Any nonempty id set in which every member has an unpopped dependency
inside the set witnesses a dependency cycle (by following dependencies and
the pigeonhole principle). -/
theorem closed_set_cycle (p : QueryPlan) (S : List String) (hne : S ≠ [])
    (hcl : ∀ x ∈ S, ∃ d, depEdge p x d ∧ d ∈ S) : hasCycleProp p := by
  classical
  obtain ⟨x0, hx0⟩ := List.exists_mem_of_ne_nil S hne
  let f : String → String := fun x =>
    if h : ∃ d, depEdge p x d ∧ d ∈ S then h.choose else x
  have hf : ∀ x ∈ S, depEdge p x (f x) ∧ f x ∈ S := by
    intro x hx
    have h := hcl x hx
    simp only [f, dif_pos h]
    exact h.choose_spec
  let g : Nat → String := fun n => Nat.rec x0 (fun _ prev => f prev) n
  have hgS : ∀ n, g n ∈ S := by
    intro n
    induction n with
    | zero => exact hx0
    | succ m ihm => exact (hf (g m) ihm).2
  have hgstep : ∀ n, depEdge p (g n) (g (n + 1)) := by
    intro n
    exact (hf (g n) (hgS n)).1
  have hchain : ∀ (k n : Nat), Relation.TransGen (depEdge p) (g n) (g (n + k + 1)) := by
    intro k
    induction k with
    | zero => intro n; exact Relation.TransGen.single (hgstep n)
    | succ m ihm =>
      intro n
      have := ihm n
      exact this.tail (hgstep (n + m + 1))
  have hmaps : ∀ i ∈ Finset.range (S.toFinset.card + 1), g i ∈ S.toFinset := by
    intro i _
    exact List.mem_toFinset.mpr (hgS i)
  have hcard : S.toFinset.card < (Finset.range (S.toFinset.card + 1)).card := by
    rw [Finset.card_range]
    omega
  obtain ⟨i, hi, j, hj, hij, hgij⟩ :=
    Finset.exists_ne_map_eq_of_card_lt_of_maps_to hcard hmaps
  rcases Nat.lt_or_ge i j with hlt | hge
  · refine ⟨g i, ?_⟩
    have : Relation.TransGen (depEdge p) (g i) (g (i + (j - i - 1) + 1)) :=
      hchain (j - i - 1) i
    rw [show i + (j - i - 1) + 1 = j by omega] at this
    rw [← hgij] at this
    exact this
  · have hlt2 : j < i := by omega
    refine ⟨g j, ?_⟩
    have : Relation.TransGen (depEdge p) (g j) (g (j + (i - j - 1) + 1)) :=
      hchain (i - j - 1) j
    rw [show j + (i - j - 1) + 1 = i by omega] at this
    rw [hgij] at this
    exact this

/-- Completeness of the Kahn while-loop: on an acyclic plan with resolvable
dependencies and enough fuel, every plan id ends up in the output. -/
theorem kahnLoop_complete (p : QueryPlan)
    (hNodup : (p.queries.map (fun q => q.id)).Nodup)
    (hDeps : ∀ q ∈ p.queries, ∀ d ∈ q.depends_on, d ∈ p.queries.map (fun q2 => q2.id))
    (hAcyc : ¬ hasCycleProp p) :
    ∀ (fuel : Nat) (queue : List String) (deg : String → Int) (acc : List String),
      KahnInv p queue deg acc →
      (p.queries.map (fun q => q.id)).length + 1 ≤ fuel + acc.length →
      ∀ x ∈ p.queries.map (fun q => q.id), x ∈ kahnLoop p fuel queue deg acc := by
  intro fuel
  induction fuel with
  | zero =>
    intro queue deg acc inv hfuel
    exfalso
    have hsub : acc.toFinset ⊆ (p.queries.map (fun q => q.id)).toFinset := by
      intro a ha
      exact List.mem_toFinset.mpr (inv.accIds a (List.mem_toFinset.mp ha))
    have hcard := Finset.card_le_card hsub
    rw [List.toFinset_card_of_nodup inv.accNodup] at hcard
    have hcard2 := List.toFinset_card_le (p.queries.map (fun q => q.id))
    omega
  | succ n ih =>
    intro queue deg acc inv hfuel
    cases queue with
    | nil =>
      intro x hx
      simp only [kahnLoop]
      by_contra hxacc
      -- the leftover ids form a closed set, contradicting acyclicity
      apply hAcyc
      apply closed_set_cycle p
        ((p.queries.map (fun q => q.id)).filter (fun y => !(acc.contains y)))
      · intro hemp
        have : x ∈ (p.queries.map (fun q => q.id)).filter (fun y => !(acc.contains y)) := by
          rw [List.mem_filter]
          exact ⟨hx, by simp [hxacc]⟩
        rw [hemp] at this
        cases this
      · intro y hy
        rw [List.mem_filter] at hy
        obtain ⟨hyids, hynacc⟩ := hy
        have hynacc2 : y ∉ acc := by simpa using hynacc
        have hdegy : deg y ≠ 0 := by
          intro h0
          rcases inv.zeroIn y hyids h0 with h1 | h2
          · exact hynacc2 h1
          · cases h2
        rw [inv.degEq y hyids] at hdegy
        have hgyq : ∃ qy, p.get_query y = some qy ∧ qy.id = y := by
          obtain ⟨q, hq, hid⟩ := List.mem_map.mp hyids
          subst hid
          exact ⟨q, get_query_self_plan p hNodup q hq, rfl⟩
        obtain ⟨qy, hgy, hidy⟩ := hgyq
        unfold remDeg at hdegy
        rw [hgy] at hdegy
        have hcp : qy.depends_on.countP (fun d => !(acc.contains d)) ≠ 0 := by
          intro h0
          apply hdegy
          show ((qy.depends_on.countP (fun d => !(acc.contains d)) : Int)) = 0
          exact_mod_cast h0
        have : ∃ d ∈ qy.depends_on, (!(acc.contains d)) = true := by
          by_contra hno
          push_neg at hno
          apply hcp
          apply List.countP_eq_zero.mpr
          intro d hd
          intro hdt
          exact (by simpa using hno d hd : ¬ (!(acc.contains d)) = true) hdt
        obtain ⟨d, hd, hdna⟩ := this
        have hqy : qy ∈ p.queries := (get_query_mem p y qy hgy).1
        refine ⟨d, ⟨qy, hgy, hd⟩, ?_⟩
        rw [List.mem_filter]
        exact ⟨hDeps qy hqy d hd, hdna⟩
    | cons qid rest =>
      have inv2 := kahn_preserve p hNodup qid rest deg acc inv
      intro x hx
      apply ih (rest ++ (processDeps (dependents p qid) deg).2)
        (processDeps (dependents p qid) deg).1 (acc ++ [qid]) inv2
      · rw [List.length_append, List.length_singleton]
        omega
      · exact hx

/-- Folding dictionary insertion over fresh duplicate-free keys appends. -/
theorem dictKeys_go (l : List String) :
    ∀ acc : List String, (∀ x ∈ l, x ∉ acc) → l.Nodup →
      l.foldl (fun acc x => if x ∈ acc then acc else acc ++ [x]) acc = acc ++ l := by
  induction l with
  | nil => intro acc _ _; simp
  | cons a t ih =>
    intro acc hfresh hnd
    simp only [List.foldl_cons]
    rw [if_neg (hfresh a (List.mem_cons_self _ _))]
    rw [ih (acc ++ [a]) ?_ (List.nodup_cons.mp hnd).2]
    · simp
    · intro x hx hmem
      rcases List.mem_append.mp hmem with h1 | h2
      · exact hfresh x (List.mem_cons_of_mem _ hx) h1
      · rw [List.mem_singleton] at h2
        subst h2
        exact (List.nodup_cons.mp hnd).1 hx

/-- On duplicate-free keys the dictionary key order is the key list. -/
theorem dictKeys_eq (l : List String) (h : l.Nodup) : dictKeys l = l := by
  unfold dictKeys
  rw [dictKeys_go l [] (fun x _ hx => (List.not_mem_nil x) hx) h]
  simp

/-- An id never inserted is left at the fold's initial value. -/
theorem in_degree_foldl_miss (qs : List QueryStep) :
    ∀ (g : String → Int) (x : String), x ∉ qs.map (fun q => q.id) →
      qs.foldl (fun f q => Function.update f q.id (q.depends_on.length : Int)) g x = g x := by
  induction qs with
  | nil => intro g x _; rfl
  | cons q0 t ih =>
    intro g x hx
    simp only [List.foldl_cons]
    rw [List.map_cons] at hx
    have hx1 : x ≠ q0.id := fun he => hx (he ▸ List.mem_cons_self _ _)
    have hx2 : x ∉ t.map (fun q => q.id) := fun hm => hx (List.mem_cons_of_mem _ hm)
    rw [ih _ x hx2, Function.update_noteq hx1]

/-- Folding the in-degree dictionary over steps with unique ids binds each
step's id to the length of its dependency list. -/
theorem in_degree_foldl_eq (qs : List QueryStep) :
    (qs.map (fun q => q.id)).Nodup →
    ∀ (g : String → Int), ∀ q ∈ qs,
      qs.foldl (fun f q => Function.update f q.id (q.depends_on.length : Int)) g q.id =
        (q.depends_on.length : Int) := by
  induction qs with
  | nil => intro _ g q hq; cases hq
  | cons q0 t ih =>
    intro hnd g q hq
    rw [List.map_cons] at hnd
    simp only [List.foldl_cons]
    rcases List.mem_cons.mp hq with h1 | h2
    · subst h1
      rw [in_degree_foldl_miss t _ q.id (List.nodup_cons.mp hnd).1]
      rw [Function.update_same]
    · exact ih (List.nodup_cons.mp hnd).2 _ q h2

/-- With unique ids the in-degree dictionary maps each step's id to the
length of its dependency list. -/
theorem in_degree0_eq (p : QueryPlan)
    (hNodup : (p.queries.map (fun q => q.id)).Nodup) :
    ∀ q ∈ p.queries, in_degree0 p q.id = (q.depends_on.length : Int) :=
  fun q hq => in_degree_foldl_eq p.queries hNodup _ q hq

/-- The scheduler's initial state satisfies the loop invariant. -/
theorem kahn_init (p : QueryPlan)
    (hNodup : (p.queries.map (fun q => q.id)).Nodup) :
    KahnInv p
      ((dictKeys (p.queries.map (fun q => q.id))).filter (fun x => in_degree0 p x == 0))
      (in_degree0 p) [] := by
  have hids := dictKeys_eq (p.queries.map (fun q => q.id)) hNodup
  have hdeg : ∀ x ∈ p.queries.map (fun q => q.id),
      ∃ qx, p.get_query x = some qx ∧ qx.id = x ∧
        in_degree0 p x = (qx.depends_on.length : Int) := by
    intro x hx
    obtain ⟨q, hq, hid⟩ := List.mem_map.mp hx
    subst hid
    exact ⟨q, get_query_self_plan p hNodup q hq, rfl, in_degree0_eq p hNodup q hq⟩
  constructor
  · exact List.nodup_nil
  · intro x hx; cases hx
  · rw [hids]
    exact hNodup.filter _
  · intro x hx
    rw [hids] at hx
    exact (List.mem_filter.mp hx).1
  · intro x hx hc; cases hc
  · intro x hx
    obtain ⟨qx, hgx, -, hlen⟩ := hdeg x hx
    have hcp : qx.depends_on.countP (fun d => !(([] : List String).contains d)) =
        qx.depends_on.length := by
      apply List.countP_eq_length.mpr
      intro a _
      rfl
    unfold remDeg
    rw [hgx, hlen]
    show (qx.depends_on.length : Int) =
      ((qx.depends_on.countP (fun d => !(([] : List String).contains d)) : Int))
    exact_mod_cast hcp.symm
  · intro x hx hz
    refine Or.inr ?_
    rw [hids]
    rw [List.mem_filter]
    exact ⟨hx, by simpa using hz⟩
  · intro x hx d hd
    rw [hids] at hx
    obtain ⟨hxids, hxz⟩ := List.mem_filter.mp hx
    obtain ⟨qx, hgx, -, hlen⟩ := hdeg x hxids
    have hz : in_degree0 p x = 0 := by simpa using hxz
    rw [hlen] at hz
    have : qx.depends_on = [] := by
      apply List.length_eq_zero.mp
      exact_mod_cast hz
    obtain ⟨q2, hg2, hdm⟩ := hd
    rw [hgx] at hg2
    injection hg2 with hg2
    subst hg2
    rw [this] at hdm
    cases hdm
  · intro i x hix d hd
    cases hix
  · intro x hcyc
    refine ⟨fun h => (List.not_mem_nil x) h, ?_⟩
    intro hxq
    rw [hids] at hxq
    obtain ⟨hxids, hxz⟩ := List.mem_filter.mp hxq
    obtain ⟨qx, hgx, -, hlen⟩ := hdeg x hxids
    have hz : in_degree0 p x = 0 := by simpa using hxz
    rw [hlen] at hz
    have hnil : qx.depends_on = [] := by
      apply List.length_eq_zero.mp
      exact_mod_cast hz
    obtain ⟨c, he, -⟩ := Relation.TransGen.head'_iff.mp hcyc
    obtain ⟨q2, hg2, hdm⟩ := he
    rw [hgx] at hg2
    injection hg2 with hg2
    subst hg2
    rw [hnil] at hdm
    cases hdm

/-- Inversion of a successful validation: the three structural checks passed
and the cycle detector answered `false`. -/
theorem validate_ok_inversion (p : QueryPlan)
    (h : validate_plan p = Except.ok ()) :
    (p.queries.map (fun q => q.id)).Nodup ∧
    p.final_query_id ∈ p.queries.map (fun q => q.id) ∧
    (∀ q ∈ p.queries, ∀ d ∈ q.depends_on, d ∈ p.queries.map (fun q2 => q2.id)) ∧
    has_circular_dependencies p = false := by
  simp only [validate_plan] at h
  by_cases h1 : (p.queries.map (fun q => q.id)).length ≠
      (p.queries.map (fun q => q.id)).dedup.length
  · rw [if_pos h1] at h; cases h
  rw [if_neg h1] at h
  have hnd : (p.queries.map (fun q => q.id)).Nodup := by
    push_neg at h1
    exact (length_eq_dedup_iff_nodup _).mp h1
  by_cases h2 : p.final_query_id ∉ p.queries.map (fun q => q.id)
  · rw [if_pos h2] at h; cases h
  rw [if_neg h2] at h
  push_neg at h2
  cases hfd : p.queries.find?
      (fun q => q.depends_on.any (fun d => !((p.queries.map (fun q2 => q2.id)).contains d))) with
  | some q => rw [hfd] at h; cases h
  | none =>
    rw [hfd] at h
    have hdeps : ∀ q ∈ p.queries, ∀ d ∈ q.depends_on,
        d ∈ p.queries.map (fun q2 => q2.id) := by
      intro q hq d hd
      have hnp := List.find?_eq_none.mp hfd q hq
      by_contra hdm
      apply hnp
      apply List.any_eq_true.mpr
      exact ⟨d, hd, by simp [hdm]⟩
    by_cases h4 : has_circular_dependencies p
    · rw [if_pos h4] at h; cases h
    · exact ⟨hnd, h2, hdeps, by simpa using h4⟩

/-- Keeping only the `some` entries of an index-preserving map: lookup
commutes with `filterMap` when the function hits on every list element. -/
theorem filterMap_getElem? {α β : Type} (g : α → Option β) :
    ∀ (l : List α), (∀ x ∈ l, (g x).isSome) →
      ∀ i : Nat, (l.filterMap g)[i]? = (l[i]?).bind g := by
  intro l
  induction l with
  | nil => intro _ i; simp
  | cons a t ih =>
    intro hall i
    obtain ⟨b, hb⟩ := Option.isSome_iff_exists.mp (hall a (List.mem_cons_self _ _))
    rw [List.filterMap_cons_some hb]
    cases i with
    | zero => simp [hb]
    | succ j =>
      simp only [List.getElem?_cons_succ]
      exact ih (fun x hx => hall x (List.mem_cons_of_mem _ hx)) j

/-- A `filterMap` that inverts a map on every element is the identity. -/
theorem filterMap_map_eq_self {α β : Type} (g : β → Option α) (f : α → β) :
    ∀ l : List α, (∀ a ∈ l, g (f a) = some a) → (l.map f).filterMap g = l := by
  intro l
  induction l with
  | nil => intro _; rfl
  | cons a t ih =>
    intro h
    rw [List.map_cons, List.filterMap_cons_some (h a (List.mem_cons_self _ _))]
    rw [ih (fun x hx => h x (List.mem_cons_of_mem _ hx))]

/-- C2: for every successfully constructed plan, `get_execution_order`
returns a permutation of the plan's steps in which every step appears after
every step named in its `depends_on` list. -/
theorem c2_execution_order_topological (p : QueryPlan)
    (h : validate_plan p = Except.ok ()) : TopoOK p := by
  obtain ⟨hNodup, hfin, hDeps, hnc⟩ := validate_ok_inversion p h
  have hAcyc := dfs_false_acyclic p hnc
  have hinv := kahn_init p hNodup
  obtain ⟨-, q2, d2, invF⟩ := kahnLoop_safe p hNodup (p.queries.length + 1)
    ((dictKeys (p.queries.map (fun q => q.id))).filter (fun x => in_degree0 p x == 0))
    (in_degree0 p) [] hinv
  have hcomp := kahnLoop_complete p hNodup hDeps hAcyc (p.queries.length + 1)
    ((dictKeys (p.queries.map (fun q => q.id))).filter (fun x => in_degree0 p x == 0))
    (in_degree0 p) [] hinv (by simp)
  have hperm_ids : (kahnLoop p (p.queries.length + 1)
      ((dictKeys (p.queries.map (fun q => q.id))).filter (fun x => in_degree0 p x == 0))
      (in_degree0 p) []).Perm (p.queries.map (fun q => q.id)) :=
    (List.perm_ext_iff_of_nodup invF.accNodup hNodup).mpr
      (fun a => ⟨fun ha => invF.accIds a ha, fun ha => hcomp a ha⟩)
  have hres : ∀ x ∈ kahnLoop p (p.queries.length + 1)
      ((dictKeys (p.queries.map (fun q => q.id))).filter (fun x => in_degree0 p x == 0))
      (in_degree0 p) [],
      ∃ qx, p.get_query x = some qx ∧ qx.id = x := by
    intro x hx
    obtain ⟨q, hq, hid⟩ := List.mem_map.mp (invF.accIds x hx)
    subst hid
    exact ⟨q, get_query_self_plan p hNodup q hq, rfl⟩
  have hsome : ∀ x ∈ kahnLoop p (p.queries.length + 1)
      ((dictKeys (p.queries.map (fun q => q.id))).filter (fun x => in_degree0 p x == 0))
      (in_degree0 p) [],
      (p.get_query x).isSome := by
    intro x hx
    obtain ⟨qx, hgx, -⟩ := hres x hx
    rw [hgx]
    rfl
  have horder : get_execution_order p = (kahnLoop p (p.queries.length + 1)
      ((dictKeys (p.queries.map (fun q => q.id))).filter (fun x => in_degree0 p x == 0))
      (in_degree0 p) []).filterMap (fun i => p.get_query i) := rfl
  constructor
  · rw [horder]
    have h1 : ((kahnLoop p (p.queries.length + 1)
        ((dictKeys (p.queries.map (fun q => q.id))).filter (fun x => in_degree0 p x == 0))
        (in_degree0 p) []).filterMap (fun i => p.get_query i)).Perm
        ((p.queries.map (fun q => q.id)).filterMap (fun i => p.get_query i)) :=
      List.Perm.filterMap _ hperm_ids
    have h2 : (p.queries.map (fun q => q.id)).filterMap (fun i => p.get_query i) =
        p.queries :=
      filterMap_map_eq_self _ _ p.queries
        (fun q hq => get_query_self_plan p hNodup q hq)
    rw [h2] at h1
    exact h1
  · intro i s his d hd
    rw [horder] at his
    rw [filterMap_getElem? (fun i => p.get_query i) _ hsome i] at his
    cases hri : (kahnLoop p (p.queries.length + 1)
        ((dictKeys (p.queries.map (fun q => q.id))).filter (fun x => in_degree0 p x == 0))
        (in_degree0 p) [])[i]? with
    | none => rw [hri] at his; cases his
    | some x =>
      rw [hri] at his
      have hgx : p.get_query x = some s := his
      have hedge : depEdge p x d := ⟨s, hgx, hd⟩
      obtain ⟨j, hj, hjd⟩ := invF.orderOK i x hri d hedge
      have hdmem : d ∈ kahnLoop p (p.queries.length + 1)
          ((dictKeys (p.queries.map (fun q => q.id))).filter (fun x => in_degree0 p x == 0))
          (in_degree0 p) [] := List.getElem?_mem hjd
      obtain ⟨t, hgt, hti⟩ := hres d hdmem
      refine ⟨j, t, hj, ?_, hti⟩
      rw [horder]
      rw [filterMap_getElem? (fun i => p.get_query i) _ hsome j, hjd]
      exact hgt

/-- C2 witness: the concrete three-step chain validates and its execution
order is a topologically sorted permutation. -/
theorem c2_witness : validate_plan demoPlan = Except.ok () ∧ TopoOK demoPlan :=
  ⟨rfl, c2_execution_order_topological demoPlan rfl⟩

/-- C7 counterexample: on the two-step cyclic step set the scheduler raises
nothing and silently returns an order that omits steps — the produced list
is strictly shorter than the plan's step list, with no consistency check
firing.  (Here it returns the empty order for a two-step plan.) -/
theorem c7_counterexample :
    (get_execution_order cyclicPlan).length < cyclicPlan.queries.length ∧
    get_execution_order cyclicPlan = [] := by
  constructor
  · decide
  · rfl

/-- C7 amended: `get_execution_order` contains no internal consistency
check; whenever the dependency relation of the step set is cyclic (ids
unique, dependencies resolvable) it silently returns a list strictly
shorter than the plan's step list, dropping the steps on cycles. -/
theorem c7_cyclic_order_drops_steps (p : QueryPlan)
    (hNodup : (p.queries.map (fun q => q.id)).Nodup)
    (_hDeps : ∀ q ∈ p.queries, ∀ d ∈ q.depends_on, d ∈ p.queries.map (fun q2 => q2.id))
    (hcyc : hasCycleProp p) :
    (get_execution_order p).length < p.queries.length := by
  obtain ⟨a, ha⟩ := hcyc
  have hinv := kahn_init p hNodup
  obtain ⟨-, q2, d2, invF⟩ := kahnLoop_safe p hNodup (p.queries.length + 1)
    ((dictKeys (p.queries.map (fun q => q.id))).filter (fun x => in_degree0 p x == 0))
    (in_degree0 p) [] hinv
  have hanotr : a ∉ kahnLoop p (p.queries.length + 1)
      ((dictKeys (p.queries.map (fun q => q.id))).filter (fun x => in_degree0 p x == 0))
      (in_degree0 p) [] := (invF.cycOut a ha).1
  have haids : a ∈ p.queries.map (fun q => q.id) := by
    obtain ⟨c, he, -⟩ := Relation.TransGen.head'_iff.mp ha
    obtain ⟨q, hq, -⟩ := he
    obtain ⟨hmem, hid⟩ := get_query_mem p a q hq
    exact List.mem_map.mpr ⟨q, hmem, hid⟩
  have hsub : (kahnLoop p (p.queries.length + 1)
      ((dictKeys (p.queries.map (fun q => q.id))).filter (fun x => in_degree0 p x == 0))
      (in_degree0 p) []).toFinset ⊆ (p.queries.map (fun q => q.id)).toFinset.erase a := by
    intro x hx
    rw [List.mem_toFinset] at hx
    rw [Finset.mem_erase]
    exact ⟨fun he => hanotr (he ▸ hx), List.mem_toFinset.mpr (invF.accIds x hx)⟩
  have hcard := Finset.card_le_card hsub
  rw [List.toFinset_card_of_nodup invF.accNodup] at hcard
  rw [Finset.card_erase_of_mem (List.mem_toFinset.mpr haids)] at hcard
  rw [List.toFinset_card_of_nodup hNodup] at hcard
  have hlen1 : 1 ≤ (p.queries.map (fun q => q.id)).length :=
    List.length_pos.mpr (fun he => by rw [he] at haids; cases haids)
  have hfm : (get_execution_order p).length ≤ (kahnLoop p (p.queries.length + 1)
      ((dictKeys (p.queries.map (fun q => q.id))).filter (fun x => in_degree0 p x == 0))
      (in_degree0 p) []).length := List.length_filterMap_le _ _
  rw [List.length_map] at hcard hlen1
  omega

/-- C7 witness for the amended claim: the two-step cycle has unique ids and
resolvable dependencies, its relation is cyclic, and the returned order is
shorter than the step list. -/
theorem c7_witness :
    (cyclicPlan.queries.map (fun q => q.id)).Nodup ∧ hasCycleProp cyclicPlan ∧
    (get_execution_order cyclicPlan).length < cyclicPlan.queries.length := by
  have hcyc : hasCycleProp cyclicPlan := by
    refine ⟨"a", Relation.TransGen.head (b := "b") ?_ (Relation.TransGen.single ?_)⟩
    · exact ⟨_, rfl, by decide⟩
    · exact ⟨_, rfl, by decide⟩
  exact ⟨by decide, hcyc,
    c7_cyclic_order_drops_steps cyclicPlan (by decide) (by decide) hcyc⟩

/-! ### Per-step outcomes of the execution driver -/

/-- The retry loop returns the input step updated to a terminal state:
either completed with results (error, results-independent fields of the
input untouched) or failed with the error recorded. -/
theorem runStepLoop_char (env : ExecEnv) (fid : String) :
    ∀ (fuel rc : Nat) (q : QueryStep) (sql : String),
      rc + fuel = env.maxRetries + 1 → rc ≤ env.maxRetries →
      stepChar q (runStepLoop env fid fuel q rc sql).1 := by
  intro fuel
  induction fuel with
  | zero => intro rc q sql h1 h2; omega
  | succ n ih =>
    intro rc q sql h1 h2
    cases hex : env.executor sql with
    | ok raw =>
      simp only [runStepLoop, hex]
      exact ⟨rfl, rfl, rfl, Or.inl ⟨rfl, ⟨_, rfl⟩, rfl, rfl, ⟨_, rfl⟩⟩⟩
    | error e =>
      by_cases hcond : rc < env.maxRetries ∧ is_retryable_error e = true
      · cases hco : env.corrector sql e q.description (rc + 1) with
        | ok corrected =>
          simp only [runStepLoop, hex, if_pos hcond, hco]
          exact ih (rc + 1) { q with sql := corrected } corrected (by omega) (by omega)
        | error e2 =>
          simp only [runStepLoop, hex, if_pos hcond, hco]
          exact ⟨rfl, rfl, rfl, Or.inr ⟨rfl, ⟨_, rfl⟩, rfl, rfl, rfl⟩⟩
      · simp only [runStepLoop, hex, if_neg hcond]
        exact ⟨rfl, rfl, rfl, Or.inr ⟨rfl, ⟨_, rfl⟩, rfl, rfl, rfl⟩⟩

/-- One full step execution returns a terminal update of its input step. -/
theorem runStep_char (env : ExecEnv) (fid : String) (q : QueryStep)
    (cache : List (String × QueryResults)) :
    stepChar q (runStep env fid q cache).1 :=
  runStepLoop_char env fid (env.maxRetries + 1) 0 q
    (resolve_dependencies q cache) (by omega) (by omega)

/-- Specification of the step-running fold: outcomes line up index by index
with the input steps, every outcome before the last is completed, a failed
outcome can only be the last one, and without a failure nothing stops
early. -/
theorem runSteps_spec (env : ExecEnv) (fid : String) :
    ∀ (steps : List QueryStep) (cache : List (String × QueryResults)),
      (runSteps env fid steps cache).length ≤ steps.length ∧
      (∀ (i : Nat) (out : StepOutcome),
        (runSteps env fid steps cache)[i]? = some out →
        ∃ src, steps[i]? = some src ∧ stepChar src out.step) ∧
      (∀ (i : Nat) (out : StepOutcome),
        (runSteps env fid steps cache)[i]? = some out →
        i + 1 < (runSteps env fid steps cache).length →
        out.step.status = QueryStatus.completed) ∧
      (∀ (i : Nat) (out : StepOutcome),
        (runSteps env fid steps cache)[i]? = some out →
        out.step.status = QueryStatus.failed →
        i + 1 = (runSteps env fid steps cache).length) ∧
      ((∀ out ∈ runSteps env fid steps cache, out.step.status ≠ QueryStatus.failed) →
        (runSteps env fid steps cache).length = steps.length) := by
  intro steps
  induction steps with
  | nil =>
    intro cache
    refine ⟨by simp [runSteps], ?_, ?_, ?_, ?_⟩
    · intro i out h; simp [runSteps] at h
    · intro i out h; simp [runSteps] at h
    · intro i out h; simp [runSteps] at h
    · intro _; simp [runSteps]
  | cons q rest ih =>
    intro cache
    have hchar := runStep_char env fid q cache
    by_cases hst : (runStep env fid q cache).1.status = QueryStatus.failed
    · have hrun : runSteps env fid (q :: rest) cache =
          [⟨(runStep env fid q cache).1, (runStep env fid q cache).2⟩] := by
        simp only [runSteps, if_pos hst]
      rw [hrun]
      refine ⟨by simp, ?_, ?_, ?_, ?_⟩
      · intro i out h
        cases i with
        | zero =>
          rw [List.getElem?_cons_zero] at h
          injection h with h
          refine ⟨q, by simp, ?_⟩
          rw [← h]
          exact hchar
        | succ j =>
          rw [List.getElem?_cons_succ] at h
          simp at h
      · intro i out h hlt
        simp only [List.length_singleton] at hlt
        omega
      · intro i out h hf
        cases i with
        | zero => simp
        | succ j =>
          rw [List.getElem?_cons_succ] at h
          simp at h
      · intro hnof
        exact absurd hst (hnof ⟨(runStep env fid q cache).1, (runStep env fid q cache).2⟩
          (by simp))
    · have hrun : runSteps env fid (q :: rest) cache =
          ⟨(runStep env fid q cache).1, (runStep env fid q cache).2⟩ ::
            runSteps env fid rest (match (runStep env fid q cache).1.results with
              | some qr => cache ++ [(q.id, qr)]
              | none => cache) := by
        simp only [runSteps, if_neg hst]
      have hcomp : (runStep env fid q cache).1.status = QueryStatus.completed := by
        rcases hchar.2.2.2 with h | h
        · exact h.1
        · exact absurd h.1 hst
      obtain ⟨hlen, hidx, hbefore, hfail, hnofail⟩ :=
        ih (match (runStep env fid q cache).1.results with
          | some qr => cache ++ [(q.id, qr)]
          | none => cache)
      rw [hrun]
      refine ⟨?_, ?_, ?_, ?_, ?_⟩
      · simp only [List.length_cons]
        omega
      · intro i out h
        cases i with
        | zero =>
          rw [List.getElem?_cons_zero] at h
          injection h with h
          refine ⟨q, by simp, ?_⟩
          rw [← h]
          exact hchar
        | succ j =>
          rw [List.getElem?_cons_succ] at h
          obtain ⟨src, hsrc, hch⟩ := hidx j out h
          exact ⟨src, by rw [List.getElem?_cons_succ]; exact hsrc, hch⟩
      · intro i out h hlt
        cases i with
        | zero =>
          rw [List.getElem?_cons_zero] at h
          injection h with h
          rw [← h]
          exact hcomp
        | succ j =>
          rw [List.getElem?_cons_succ] at h
          rw [List.length_cons] at hlt
          exact hbefore j out h (by omega)
      · intro i out h hf
        cases i with
        | zero =>
          rw [List.getElem?_cons_zero] at h
          injection h with h
          rw [← h] at hf
          exact absurd hf hst
        | succ j =>
          rw [List.getElem?_cons_succ] at h
          rw [List.length_cons]
          have := hfail j out h hf
          omega
      · intro hnof
        rw [List.length_cons, List.length_cons]
        have : (∀ out ∈ runSteps env fid rest (match (runStep env fid q cache).1.results with
            | some qr => cache ++ [(q.id, qr)]
            | none => cache), out.step.status ≠ QueryStatus.failed) := by
          intro out hout
          exact hnof out (List.mem_cons_of_mem _ hout)
        rw [hnofail this]

/-- Scheduler output only contains steps of the plan. -/
theorem exec_order_subset (p : QueryPlan) :
    ∀ s ∈ get_execution_order p, s ∈ p.queries := by
  intro s hs
  obtain ⟨x, -, hgx⟩ := List.mem_filterMap.mp hs
  exact (get_query_mem p x s hgx).1

/-- Distinct positions of a duplicate-free list hold distinct values. -/
theorem nodup_ne_of_getElem? {α : Type} (l : List α) (h : l.Nodup) (i j : Nat)
    (hij : i ≠ j) (a b : α) (ha : l[i]? = some a) (hb : l[j]? = some b) : a ≠ b := by
  obtain ⟨hi, hieq⟩ := List.getElem?_eq_some.mp ha
  obtain ⟨hj2, hjeq⟩ := List.getElem?_eq_some.mp hb
  intro he
  apply hij
  apply (h.getElem_inj_iff).mp
  rw [hieq, hjeq, he]

/-- Resolving every id of a list gives back the id list under `map id`. -/
theorem mapid_filterMap (p : QueryPlan) :
    ∀ (r : List String), (∀ x ∈ r, ∃ qx, p.get_query x = some qx ∧ qx.id = x) →
      ((r.filterMap (fun i => p.get_query i)).map (fun s => s.id)) = r := by
  intro r
  induction r with
  | nil => intro _; rfl
  | cons x t ih =>
    intro h
    obtain ⟨qx, hgx, hid⟩ := h x (List.mem_cons_self _ _)
    rw [List.filterMap_cons_some hgx, List.map_cons, hid]
    rw [ih (fun y hy => h y (List.mem_cons_of_mem _ hy))]

/-- With unique step ids the scheduler output has duplicate-free ids. -/
theorem exec_order_ids_nodup (p : QueryPlan)
    (hNodup : (p.queries.map (fun q => q.id)).Nodup) :
    ((get_execution_order p).map (fun s => s.id)).Nodup := by
  have hinv := kahn_init p hNodup
  obtain ⟨-, q2, d2, invF⟩ := kahnLoop_safe p hNodup (p.queries.length + 1)
    ((dictKeys (p.queries.map (fun q => q.id))).filter (fun x => in_degree0 p x == 0))
    (in_degree0 p) [] hinv
  have hres : ∀ x ∈ kahnLoop p (p.queries.length + 1)
      ((dictKeys (p.queries.map (fun q => q.id))).filter (fun x => in_degree0 p x == 0))
      (in_degree0 p) [],
      ∃ qx, p.get_query x = some qx ∧ qx.id = x := by
    intro x hx
    obtain ⟨q, hq, hid⟩ := List.mem_map.mp (invF.accIds x hx)
    subst hid
    exact ⟨q, get_query_self_plan p hNodup q hq, rfl⟩
  have heq : ((get_execution_order p).map (fun s => s.id)) = kahnLoop p
      (p.queries.length + 1)
      ((dictKeys (p.queries.map (fun q => q.id))).filter (fun x => in_degree0 p x == 0))
      (in_degree0 p) [] := mapid_filterMap p _ hres
  rw [heq]
  exact invF.accNodup

/-- Every step of the executed plan is either an untouched original step or
a terminal outcome of some original step. -/
theorem exec_plan_step_cases (env : ExecEnv) (p : QueryPlan)
    (q2 : QueryStep) (hq2 : q2 ∈ (execute_plan env p).queries) :
    q2 ∈ p.queries ∨ ∃ src ∈ p.queries, stepChar src q2 := by
  obtain ⟨q, hq, hrepl⟩ := List.mem_map.mp hq2
  cases hfd : ((runSteps env p.final_query_id (get_execution_order p) []).map
      (fun o => o.step)).find? (fun s => s.id = q.id) with
  | none =>
    rw [hfd] at hrepl
    left
    rw [← hrepl]
    exact hq
  | some s =>
    rw [hfd] at hrepl
    right
    have hsmem : s ∈ (runSteps env p.final_query_id (get_execution_order p) []).map
        (fun o => o.step) := List.mem_of_find?_eq_some hfd
    obtain ⟨out, hout, hos⟩ := List.mem_map.mp hsmem
    obtain ⟨i, hi⟩ := List.mem_iff_getElem?.mp hout
    obtain ⟨src, hsrc, hchar⟩ :=
      (runSteps_spec env p.final_query_id (get_execution_order p) []).2.1 i out hi
    refine ⟨src, exec_order_subset p src (List.getElem?_mem hsrc), ?_⟩
    rw [← hrepl, ← hos]
    exact hchar

/-- C9: after `execute_plan` on a fresh, validly constructed plan, every
step's results are set exactly when it is `Completed`, its error is set
exactly when it is `Failed`, and no step is left `Executing`. -/
theorem c9_terminal_step_fields (env : ExecEnv) (p : QueryPlan)
    (_hv : validate_plan p = Except.ok ()) (hf : freshPlan p) :
    ∀ q2 ∈ (execute_plan env p).queries,
      ((q2.results ≠ none) ↔ q2.status = QueryStatus.completed) ∧
      ((q2.error ≠ none) ↔ q2.status = QueryStatus.failed) ∧
      q2.status ≠ QueryStatus.executing := by
  intro q2 hq2
  rcases exec_plan_step_cases env p q2 hq2 with horig | ⟨src, hsrc, hchar⟩
  · obtain ⟨hs, hr, he, -, -⟩ := hf q2 horig
    rw [hs, hr, he]
    refine ⟨by simp, by simp, by simp⟩
  · obtain ⟨hfs, hfr, hfe, -, -⟩ := hf src hsrc
    obtain ⟨-, -, -, hdisj⟩ := hchar
    rcases hdisj with ⟨h1, ⟨r, h2⟩, h3, -, -⟩ | ⟨h1, ⟨e, h2⟩, h3, -, -⟩
    · rw [h1, h2, h3, hfe]
      refine ⟨by simp, by simp, by simp⟩
    · rw [h1, h2, h3, hfr]
      refine ⟨by simp, by simp, by simp⟩

/-- C9 witness: the chain plan under the mid-failing environment. -/
theorem c9_witness :
    validate_plan demoPlan = Except.ok () ∧ freshPlan demoPlan ∧
    (∀ q2 ∈ (execute_plan midFailEnv demoPlan).queries,
      ((q2.results ≠ none) ↔ q2.status = QueryStatus.completed) ∧
      ((q2.error ≠ none) ↔ q2.status = QueryStatus.failed) ∧
      q2.status ≠ QueryStatus.executing) :=
  ⟨rfl, by decide, c9_terminal_step_fields midFailEnv demoPlan rfl (by decide)⟩

/-- C5: `execute_plan` is total over well-formed fresh plans for every
executor/corrector behaviour — it returns the plan with the plan-level
duration set and every step in a recorded state: `Pending`, `Completed`
(results present) or `Failed` (error message present); failures are encoded
in step fields, never thrown. -/
theorem c5_execute_never_throws (env : ExecEnv) (p : QueryPlan)
    (_hv : validate_plan p = Except.ok ()) (hf : freshPlan p) :
    (execute_plan env p).total_execution_time_ms = some 0 ∧
    ∀ q2 ∈ (execute_plan env p).queries,
      (q2.status = QueryStatus.pending ∨ q2.status = QueryStatus.completed ∨
        q2.status = QueryStatus.failed) ∧
      (q2.status = QueryStatus.failed → q2.error ≠ none) ∧
      (q2.status = QueryStatus.completed → q2.results ≠ none) := by
  refine ⟨rfl, ?_⟩
  intro q2 hq2
  rcases exec_plan_step_cases env p q2 hq2 with horig | ⟨src, hsrc, hchar⟩
  · obtain ⟨hs, -, -, -, -⟩ := hf q2 horig
    rw [hs]
    exact ⟨Or.inl rfl, by simp, by simp⟩
  · obtain ⟨-, -, -, hdisj⟩ := hchar
    rcases hdisj with ⟨h1, ⟨r, h2⟩, -, -, -⟩ | ⟨h1, ⟨e, h2⟩, -, -, -⟩
    · rw [h1, h2]
      exact ⟨Or.inr (Or.inl rfl), by simp, by simp⟩
    · rw [h1, h2]
      exact ⟨Or.inr (Or.inr rfl), by simp, by simp⟩

/-- C5 witness: the chain plan under an environment whose executor raises on
all but the first step. -/
theorem c5_witness :
    validate_plan demoPlan = Except.ok () ∧ freshPlan demoPlan ∧
    ((execute_plan midFailEnv demoPlan).total_execution_time_ms = some 0 ∧
    ∀ q2 ∈ (execute_plan midFailEnv demoPlan).queries,
      (q2.status = QueryStatus.pending ∨ q2.status = QueryStatus.completed ∨
        q2.status = QueryStatus.failed) ∧
      (q2.status = QueryStatus.failed → q2.error ≠ none) ∧
      (q2.status = QueryStatus.completed → q2.results ≠ none)) :=
  ⟨rfl, by decide, c5_execute_never_throws midFailEnv demoPlan rfl (by decide)⟩

/-- The ids of the step outcomes are the first `outs.length` scheduler ids,
in order. -/
theorem outs_step_ids_take (env : ExecEnv) (p : QueryPlan) :
    (((runSteps env p.final_query_id (get_execution_order p) []).map
        (fun o => o.step)).map (fun s => s.id)) =
      ((get_execution_order p).map (fun s => s.id)).take
        (runSteps env p.final_query_id (get_execution_order p) []).length := by
  apply List.ext_getElem?
  intro i
  rw [List.getElem?_map, List.getElem?_map]
  by_cases hi : i < (runSteps env p.final_query_id (get_execution_order p) []).length
  · rw [List.getElem?_take_of_lt hi, List.getElem?_map]
    have hout : (runSteps env p.final_query_id (get_execution_order p) [])[i]? =
        some ((runSteps env p.final_query_id (get_execution_order p) [])[i]) :=
      List.getElem?_eq_getElem hi
    obtain ⟨src, hsrc, hchar⟩ :=
      (runSteps_spec env p.final_query_id (get_execution_order p) []).2.1 i _ hout
    rw [hout, hsrc]
    simp only [Option.map_some']
    rw [hchar.1]
  · push_neg at hi
    rw [List.getElem?_eq_none hi]
    have hlen : (((get_execution_order p).map (fun s => s.id)).take
        (runSteps env p.final_query_id (get_execution_order p) []).length).length ≤ i := by
      have := List.length_take_le
        (runSteps env p.final_query_id (get_execution_order p) []).length
        ((get_execution_order p).map (fun s => s.id))
      omega
    rw [List.getElem?_eq_none hlen]
    rfl

/-- With unique step ids, the outcome steps have duplicate-free ids. -/
theorem outs_step_ids_nodup (env : ExecEnv) (p : QueryPlan)
    (hNodup : (p.queries.map (fun q => q.id)).Nodup) :
    (((runSteps env p.final_query_id (get_execution_order p) []).map
        (fun o => o.step)).map (fun s => s.id)).Nodup := by
  rw [outs_step_ids_take env p]
  exact (exec_order_ids_nodup p hNodup).sublist (List.take_sublist _ _)

/-- The executed plan's entry for a step whose index is beyond the outcome
list is the original step itself. -/
theorem exec_plan_after_failure_find (env : ExecEnv) (p : QueryPlan)
    (hNodup : (p.queries.map (fun q => q.id)).Nodup)
    (j : Nat) (s : QueryStep) (hj : (get_execution_order p)[j]? = some s)
    (hge : (runSteps env p.final_query_id (get_execution_order p) []).length ≤ j) :
    ((runSteps env p.final_query_id (get_execution_order p) []).map
      (fun o => o.step)).find? (fun s2 => s2.id = s.id) = none := by
  apply List.find?_eq_none.mpr
  intro s2 hs2 hps
  have hseq : s2.id = s.id := by simpa using hps
  obtain ⟨i, hi⟩ := List.mem_iff_getElem?.mp hs2
  have hii : i < (runSteps env p.final_query_id (get_execution_order p) []).length := by
    rcases List.getElem?_eq_some.mp hi with ⟨hw, -⟩
    rw [List.length_map] at hw
    exact hw
  have h1 : (((runSteps env p.final_query_id (get_execution_order p) []).map
      (fun o => o.step)).map (fun s3 => s3.id))[i]? = some s2.id := by
    rw [List.getElem?_map, hi]
    rfl
  rw [outs_step_ids_take env p] at h1
  rw [List.getElem?_take_of_lt hii] at h1
  have h2 : ((get_execution_order p).map (fun s3 => s3.id))[j]? = some s.id := by
    rw [List.getElem?_map, hj]
    rfl
  exact nodup_ne_of_getElem? _ (exec_order_ids_nodup p hNodup) i j (by omega)
    s2.id s.id h1 h2 hseq

/-- The executed plan's entry for the step at outcome index `i` is that
outcome step. -/
theorem exec_plan_outcome_find (env : ExecEnv) (p : QueryPlan)
    (hNodup : (p.queries.map (fun q => q.id)).Nodup)
    (i : Nat) (out : StepOutcome) (src : QueryStep)
    (hi : (runSteps env p.final_query_id (get_execution_order p) [])[i]? = some out)
    (_hsrc : (get_execution_order p)[i]? = some src)
    (hid : out.step.id = src.id) :
    ((runSteps env p.final_query_id (get_execution_order p) []).map
      (fun o => o.step)).find? (fun s2 => s2.id = src.id) = some out.step := by
  have hmem : out.step ∈ (runSteps env p.final_query_id (get_execution_order p) []).map
      (fun o => o.step) :=
    List.mem_map.mpr ⟨out, List.getElem?_mem hi, rfl⟩
  have := get_query_self ((runSteps env p.final_query_id (get_execution_order p) []).map
    (fun o => o.step)) (outs_step_ids_nodup env p hNodup) out.step hmem
  simp only [← hid]
  exact this

/-- C6: if some step ends `Failed` during `execute_plan` of a fresh, validly
constructed plan, the outcomes stop at that step: every earlier step in the
execution order completed with its results recorded in the returned plan,
the failing step's failed state is recorded, and every later step of the
execution order never starts — it sits in the returned plan untouched,
`Pending`, with no results, error, duration or row count. -/
theorem c6_failure_stops_remaining (env : ExecEnv) (p : QueryPlan)
    (hv : validate_plan p = Except.ok ()) (hf : freshPlan p)
    (hfail : ∃ q2 ∈ (execute_plan env p).queries, q2.status = QueryStatus.failed) :
    ∃ k : Nat,
      (runSteps env p.final_query_id (get_execution_order p) []).length = k + 1 ∧
      k < (get_execution_order p).length ∧
      (∀ (i : Nat) (out : StepOutcome),
        (runSteps env p.final_query_id (get_execution_order p) [])[i]? = some out →
        i < k →
        out.step.status = QueryStatus.completed ∧ out.step.results ≠ none ∧
          out.step ∈ (execute_plan env p).queries) ∧
      (∀ out : StepOutcome,
        (runSteps env p.final_query_id (get_execution_order p) [])[k]? = some out →
        out.step.status = QueryStatus.failed ∧ (∃ e, out.step.error = some e) ∧
          out.step ∈ (execute_plan env p).queries) ∧
      (∀ (j : Nat) (s : QueryStep), (get_execution_order p)[j]? = some s → k < j →
        s ∈ (execute_plan env p).queries ∧ s.status = QueryStatus.pending ∧
        s.results = none ∧ s.error = none ∧ s.execution_time_ms = none ∧
        s.row_count = none) := by
  obtain ⟨hNodup, -, -, -⟩ := validate_ok_inversion p hv
  -- locate the failed outcome
  obtain ⟨q2, hq2, hq2f⟩ := hfail
  obtain ⟨q, hq, hrepl⟩ := List.mem_map.mp hq2
  have hout_failed : ∃ (i : Nat) (out : StepOutcome),
      (runSteps env p.final_query_id (get_execution_order p) [])[i]? = some out ∧
      out.step.status = QueryStatus.failed := by
    cases hfd : ((runSteps env p.final_query_id (get_execution_order p) []).map
        (fun o => o.step)).find? (fun s => s.id = q.id) with
    | none =>
      rw [hfd] at hrepl
      rw [← hrepl] at hq2f
      obtain ⟨hs, -, -, -, -⟩ := hf q hq
      rw [hs] at hq2f
      cases hq2f
    | some s =>
      rw [hfd] at hrepl
      have hrepl2 : s = q2 := hrepl
      have hsmem := List.mem_of_find?_eq_some hfd
      obtain ⟨out, hout, hos⟩ := List.mem_map.mp hsmem
      obtain ⟨i, hi⟩ := List.mem_iff_getElem?.mp hout
      refine ⟨i, out, hi, ?_⟩
      rw [hos, hrepl2]
      exact hq2f
  obtain ⟨i0, out0, hi0, hf0⟩ := hout_failed
  have hk := (runSteps_spec env p.final_query_id (get_execution_order p) []).2.2.2.1
    i0 out0 hi0 hf0
  refine ⟨i0, hk.symm, ?_, ?_, ?_, ?_⟩
  · have h1 := (runSteps_spec env p.final_query_id (get_execution_order p) []).1
    omega
  · intro i out hi hlt
    obtain ⟨src, hsrc, hchar⟩ :=
      (runSteps_spec env p.final_query_id (get_execution_order p) []).2.1 i out hi
    have hcomp := (runSteps_spec env p.final_query_id (get_execution_order p) []).2.2.1
      i out hi (by omega)
    have hres : out.step.results ≠ none := by
      rcases hchar.2.2.2 with ⟨-, ⟨r, hr⟩, -, -, -⟩ | ⟨hst, -, -, -, -⟩
      · rw [hr]; simp
      · rw [hcomp] at hst; cases hst
    refine ⟨hcomp, hres, ?_⟩
    have hfind := exec_plan_outcome_find env p hNodup i out src hi hsrc hchar.1
    apply List.mem_map.mpr
    refine ⟨src, exec_order_subset p src (List.getElem?_mem hsrc), ?_⟩
    rw [hfind]
  · intro out hiout
    rw [hiout] at hi0
    injection hi0 with hi0
    subst hi0
    obtain ⟨src, hsrc, hchar⟩ :=
      (runSteps_spec env p.final_query_id (get_execution_order p) []).2.1 i0 out hiout
    have herr : ∃ e, out.step.error = some e := by
      rcases hchar.2.2.2 with ⟨hst, -, -, -, -⟩ | ⟨-, he, -, -, -⟩
      · rw [hf0] at hst; cases hst
      · exact he
    refine ⟨hf0, herr, ?_⟩
    have hfind := exec_plan_outcome_find env p hNodup i0 out src hiout hsrc hchar.1
    apply List.mem_map.mpr
    refine ⟨src, exec_order_subset p src (List.getElem?_mem hsrc), ?_⟩
    rw [hfind]
  · intro j s hj hgt
    have hfind := exec_plan_after_failure_find env p hNodup j s hj (by omega)
    have hsp : s ∈ p.queries := exec_order_subset p s (List.getElem?_mem hj)
    obtain ⟨h1, h2, h3, h4, h5⟩ := hf s hsp
    refine ⟨?_, h1, h2, h3, h4, h5⟩
    apply List.mem_map.mpr
    refine ⟨s, hsp, ?_⟩
    rw [hfind]

/-- C6 witness: under the mid-failing environment the chain plan fails at
its second step; the theorem's conclusions hold at this concrete run. -/
theorem c6_witness :
    validate_plan demoPlan = Except.ok () ∧ freshPlan demoPlan ∧
    (∃ q2 ∈ (execute_plan midFailEnv demoPlan).queries,
      q2.status = QueryStatus.failed) ∧
    (∃ k : Nat,
      (runSteps midFailEnv demoPlan.final_query_id (get_execution_order demoPlan) []).length
        = k + 1 ∧
      k < (get_execution_order demoPlan).length ∧
      (∀ (i : Nat) (out : StepOutcome),
        (runSteps midFailEnv demoPlan.final_query_id
          (get_execution_order demoPlan) [])[i]? = some out →
        i < k →
        out.step.status = QueryStatus.completed ∧ out.step.results ≠ none ∧
          out.step ∈ (execute_plan midFailEnv demoPlan).queries) ∧
      (∀ out : StepOutcome,
        (runSteps midFailEnv demoPlan.final_query_id
          (get_execution_order demoPlan) [])[k]? = some out →
        out.step.status = QueryStatus.failed ∧ (∃ e, out.step.error = some e) ∧
          out.step ∈ (execute_plan midFailEnv demoPlan).queries) ∧
      (∀ (j : Nat) (s : QueryStep), (get_execution_order demoPlan)[j]? = some s → k < j →
        s ∈ (execute_plan midFailEnv demoPlan).queries ∧
        s.status = QueryStatus.pending ∧ s.results = none ∧ s.error = none ∧
        s.execution_time_ms = none ∧ s.row_count = none)) :=
  ⟨rfl, by decide, by decide,
   c6_failure_stops_remaining midFailEnv demoPlan rfl (by decide) (by decide)⟩

end Memova
